import Mathlib

/-!
# A verification of `rust-algorithms`' graph module

This file gives a shallow embedding of `src/graph/mod.rs`:

* `DisjointSets` (union-find with path compression, union without rank),
* `Graph` (a compact adjacency-list representation given by the parallel
  arrays `first`, `next`, `endp`),
* `Graph.euler_path` (recursive Hierholzer-style Euler path extraction),
* `Graph.min_spanning_tree` (Kruskal's algorithm).

Rust's panics (out-of-range indexing, failed `assert_eq!`) are modelled by
`Option`: a function returns `none` exactly when the Rust original aborts
(or, where noted, when an invalid state would make the original diverge;
on all states reachable through the public API we prove the chosen fuel
suffices, so `none` really marks a panic).  Machine integers are modelled
by `Nat` (indices; no arithmetic that could overflow is performed on them
beyond what the caller already performed to supply them) and `Int`
(`i64` edge weights; Kruskal only compares weights, so no overflow site
exists).
-/

namespace RustAlgorithms

/-- Union of disjoint sets; each set is a tree whose root is the set's
representative.  Field `parent` embeds `parent: Vec<usize>`. -/
structure DisjointSets where
  parent : List Nat
deriving Repr, DecidableEq

namespace DisjointSets

/-- `DisjointSets::new(size)`: singleton sets `0..size`, each its own parent. -/
def new (size : Nat) : DisjointSets :=
  ⟨List.range size⟩

/-- Work loop of `DisjointSets::find`, embedding

```rust
pub fn find(&mut self, u: usize) -> usize {
    let pu = self.parent[u];
    if pu != u { self.parent[u] = self.find(pu); }
    self.parent[u]
}
```

The value is the pair (updated parent array, returned representative);
`none` models the panic on `self.parent[u]` when `u` is out of range, and
also fuel exhaustion, which on a corrupt (cyclic) parent array stands for
the Rust original's divergence.  On every valid state the fuel used by
`find` below is proved sufficient. -/
def findAux : Nat → List Nat → Nat → Option (List Nat × Nat)
  | 0, _, _ => none
  | fuel + 1, p, u =>
    match p.get? u with
    | none => none
    | some pu =>
      if pu = u then some (p, u)
      else
        match findAux fuel p pu with
        | none => none
        | some (p1, r) => some (p1.set u r, r)

/-- `DisjointSets::find(u)` with path compression: returns the updated
structure and the representative. -/
def find (d : DisjointSets) (u : Nat) : Option (DisjointSets × Nat) :=
  (findAux d.parent.length d.parent u).map fun pr => (⟨pr.1⟩, pr.2)

/-- `DisjointSets::merge(u, v)`, embedding

```rust
pub fn merge(&mut self, u: usize, v: usize) -> bool {
    let (pu, pv) = (self.find(u), self.find(v));
    self.parent[pu] = pv;
    pu != pv
}
```
-/
def merge (d : DisjointSets) (u v : Nat) : Option (DisjointSets × Bool) :=
  match d.find u with
  | none => none
  | some (d1, pu) =>
    match d1.find v with
    | none => none
    | some (d2, pv) => some (⟨d2.parent.set pu pv⟩, pu != pv)

end DisjointSets

/-- The compact graph representation: three parallel arrays.
`first : Vec<Option<usize>>`, `next : Vec<Option<usize>>`,
`endp : Vec<usize>`. -/
structure Graph where
  first : List (Option Nat)
  next : List (Option Nat)
  endp : List Nat
deriving Repr, DecidableEq

namespace Graph

/-- `Graph::new(vmax, emax)`: `vmax` vertices, no edges (`emax` is only a
capacity hint in Rust and does not affect behaviour). -/
def new (vmax : Nat) (_emax : Nat) : Graph :=
  ⟨List.replicate vmax none, [], []⟩

/-- `Graph::num_v`. -/
def num_v (g : Graph) : Nat := g.first.length

/-- `Graph::num_e`. -/
def num_e (g : Graph) : Nat := g.next.length

/-- `Graph::add_edge(u, v)`, embedding

```rust
pub fn add_edge(&mut self, u: usize, v: usize) {
    self.next.push(self.first[u]);
    self.first[u] = Some(self.endp.len());
    self.endp.push(v);
}
```

`none` models the panic on `self.first[u]` when `u >= num_v()`;
the destination `v` is not validated. -/
def add_edge (g : Graph) (u v : Nat) : Option Graph :=
  match g.first.get? u with
  | none => none
  | some fu =>
    some ⟨g.first.set u (some g.endp.length), g.next ++ [fu], g.endp ++ [v]⟩

/-- `Graph::add_undirected_edge(u, v)`: the two directed edges `u→v`, `v→u`. -/
def add_undirected_edge (g : Graph) (u v : Nat) : Option Graph :=
  (g.add_edge u v).bind fun g1 => g1.add_edge v u

/-- `Graph::add_two_sat_clause(u, v)`: the implication edges `u^1→v`, `v^1→u`. -/
def add_two_sat_clause (g : Graph) (u v : Nat) : Option Graph :=
  (g.add_edge (u ^^^ 1) v).bind fun g1 => g1.add_edge (v ^^^ 1) u

/-- The list of `(edge, destination)` pairs an `AdjListIterator` yields when
started at pointer `e₀` and driven to exhaustion, embedding

```rust
fn next(&mut self) -> Option<Self::Item> {
    self.next_e.map( |e| {
        let v = self.graph.endp[e];
        self.next_e = self.graph.next[e];
        (e, v)
    })
}
```

The iterator is pure (it never mutates the graph), so the lazy Rust
iterator and this eager materialisation yield the same pairs.  `none`
models the panic on `endp[e]`/`next[e]` for a dangling pointer, and fuel
exhaustion models divergence on a cyclic `next` chain; neither can occur
on a graph built through the API, where the fuel `num_e` used by
`adj_list` is proved sufficient. -/
def adjStreamAux (g : Graph) : Nat → Option Nat → Option (List (Nat × Nat))
  | _, none => some []
  | 0, some _ => none
  | fuel + 1, some e =>
    match g.endp.get? e, g.next.get? e with
    | some v, some ne => (adjStreamAux g fuel ne).map fun l => (e, v) :: l
    | _, _ => none

/-- `Graph::adj_list(u)` as the full list of pairs the fresh iterator
yields; `none` models the panic on `first[u]` for `u ≥ num_v()`. -/
def adj_list (g : Graph) (u : Nat) : Option (List (Nat × Nat)) :=
  match g.first.get? u with
  | none => none
  | some fe => adjStreamAux g g.num_e fe

end Graph

/-- Total number of entries left in an euler traversal state (one remaining
adjacency list per vertex). -/
def stateSize (adj : List (List (Nat × Nat))) : Nat :=
  (adj.map List.length).sum

/-- `Graph::euler_recurse`, embedding

```rust
fn euler_recurse(&self, u: usize, adj: &mut [AdjListIterator], edges: &mut Vec<usize>) {
    while let Some((e, v)) = adj[u].next() {
        self.euler_recurse(v, adj, edges);
        edges.push(e);
    }
}
```

The state `adj` is the array of not-yet-consumed tails of the per-vertex
iterators; popping the head entry is one `adj[u].next()` call.  The result
is the final state together with the edge indices in push order: one loop
iteration contributes (recursive block) ++ [e] ++ (rest of the loop).
`none` models the panic on `adj[u]` when a traversed edge leads out of
range, and fuel exhaustion, which the fuel `stateSize adj + 1` chosen by
`euler_path` is proved never to trigger (each iteration first consumes an
edge, so the nesting depth is bounded by the number of remaining edges). -/
def eulerRecurse : Nat → List (List (Nat × Nat)) → Nat →
    Option (List (List (Nat × Nat)) × List Nat)
  | 0, _, _ => none
  | fuel + 1, adj, u =>
    match adj.get? u with
    | none => none
    | some [] => some (adj, [])
    | some ((e, v) :: rest) =>
      match eulerRecurse fuel (adj.set u rest) v with
      | none => none
      | some (adj2, b1) =>
        match eulerRecurse fuel adj2 u with
        | none => none
        | some (adj3, b2) => some (adj3, b1 ++ e :: b2)

namespace Graph

/-- The initial iterator array of `euler_path`:
`(0..self.num_v()).map(|u| self.adj_list(u)).collect()`. -/
def initAdj (g : Graph) : Option (List (List (Nat × Nat))) :=
  (List.range g.num_v).mapM fun u => g.adj_list u

/-- `Graph::euler_path(u)`: run `euler_recurse` from `u` on fresh iterators,
then reverse the accumulated edge list. -/
def euler_path (g : Graph) (u : Nat) : Option (List Nat) :=
  match g.initAdj with
  | none => none
  | some adj =>
    match eulerRecurse (stateSize adj + 1) adj u with
    | none => none
    | some (_, edges) => some edges.reverse

/-- The comparison `sort_by_key(|&e| weights[e])` sorts by.  Indices sorted
by `min_spanning_tree` are always in range, so the default is immaterial. -/
def weightLE (weights : List Int) (e1 e2 : Nat) : Prop :=
  weights.getD e1 0 ≤ weights.getD e2 0

instance (weights : List Int) : DecidableRel (weightLE weights) := fun e1 e2 =>
  inferInstanceAs (Decidable (weights.getD e1 0 ≤ weights.getD e2 0))

instance (weights : List Int) : IsTotal Nat (weightLE weights) :=
  ⟨fun e1 e2 => Int.le_total _ _⟩

instance (weights : List Int) : IsTrans Nat (weightLE weights) :=
  ⟨fun _ _ _ => Int.le_trans⟩

/-- The filtering pass of Kruskal's algorithm:

```rust
edges.into_iter()
    .filter(|&e| components.merge(self.endp[2*e], self.endp[2*e+1]))
    .collect()
```

`none` models the panics: `endp[2e]`/`endp[2e+1]` out of range, or an
out-of-range find inside `merge`. -/
def kruskalGo (g : Graph) : List Nat → DisjointSets → Option (List Nat)
  | [], _ => some []
  | e :: rest, c =>
    match g.endp.get? (2 * e), g.endp.get? (2 * e + 1) with
    | some x, some y =>
      match c.merge x y with
      | none => none
      | some (c1, keep) =>
        (kruskalGo g rest c1).map fun l => if keep then e :: l else l
    | _, _ => none

/-- `Graph::min_spanning_tree(weights)`.  `none` on the failed
`assert_eq!(self.num_e(), 2 * weights.len())` or on a panic inside the
filtering pass.  `sort_by_key` is a stable sort; `List.insertionSort`
with the non-strict key comparison is also stable, and stable sorting by
the same key determines the output uniquely, so the two agree. -/
def min_spanning_tree (g : Graph) (weights : List Int) : Option (List Nat) :=
  if g.num_e = 2 * weights.length then
    kruskalGo g ((List.range weights.length).insertionSort (weightLE weights))
      (DisjointSets.new g.num_v)
  else none

end Graph

/-- Build a graph by `Graph::new(n, _)` followed by `add_edge u v` for each
pair in `es`, in order.  This describes exactly the graphs reachable through
the API (`add_undirected_edge` and `add_two_sat_clause` are successive
`add_edge` calls). -/
def buildGraph : Nat → List (Nat × Nat) → Option Graph
  | n, es => es.foldlM (fun g uv => g.add_edge uv.1 uv.2) (Graph.new n 0)

/-! ## Union-find theory

`step p` is one parent-pointer dereference (out-of-range elements are
treated as their own parents, which keeps the combinators total; `findAux`
itself still fails on them, as Rust does).  `root p u` iterates the parent
pointer `p.length` times, which reaches the representative on every valid
state. -/

namespace DisjointSets

/-- One parent-pointer step. -/
def step (p : List Nat) (x : Nat) : Nat := p.getD x x

/-- `k`-fold parent-pointer step. -/
def iterP (p : List Nat) : Nat → Nat → Nat
  | 0, x => x
  | k + 1, x => iterP p k (step p x)

/-- `x` is a set representative. -/
def isRoot (p : List Nat) (x : Nat) : Prop := step p x = x

instance (p : List Nat) (x : Nat) : Decidable (isRoot p x) :=
  inferInstanceAs (Decidable (_ = _))

/-- The representative of `x`'s set. -/
def root (p : List Nat) (x : Nat) : Nat := iterP p p.length x

/-- Validity of a parent array: parents are in range and every chain of
parent pointers reaches a representative.  Every state reachable through
the API satisfies it. -/
structure Inv (p : List Nat) : Prop where
  entries : ∀ u, u < p.length → step p u < p.length
  reaches : ∀ u, u < p.length → ∃ k, isRoot p (iterP p k u)

end DisjointSets

/-! ## Specification-side notions about built graphs -/

/-- Build a graph through `add_undirected_edge` only. -/
def buildUndirected : Nat → List (Nat × Nat) → Option Graph
  | n, ps => ps.foldlM (fun g uv => g.add_undirected_edge uv.1 uv.2) (Graph.new n 0)

/-- The directed insertion sequence an undirected build performs:
each pair `(u, v)` contributes `u→v` then `v→u`. -/
def undirPairs (ps : List (Nat × Nat)) : List (Nat × Nat) :=
  ps.flatMap fun uv => [(uv.1, uv.2), (uv.2, uv.1)]

/-- Structural well-formedness of the three arrays: the two per-edge arrays
have equal length and every stored edge pointer refers to a previously
inserted edge.  Every graph built through the API satisfies it; it is what
makes the `first`/`next` chains finite. -/
structure GraphWF (g : Graph) : Prop where
  elen : g.endp.length = g.next.length
  fbound : ∀ u e, g.first.getD u none = some e → e < g.next.length
  nbound : ∀ i e, i < g.next.length → g.next.getD i none = some e → e < i

/-- Source vertex of edge `i` of the graph built from insertion sequence
`es` (the `add_edge` call that created edge `i` was `add_edge es[i].1 es[i].2`). -/
def srcD (es : List (Nat × Nat)) (i : Nat) : Nat := (es.getD i (0, 0)).1

/-- Destination vertex of edge `i` of the graph built from `es`. -/
def dstD (es : List (Nat × Nat)) (i : Nat) : Nat := (es.getD i (0, 0)).2

/-- The expected adjacency entries of vertex `u` in insertion order:
`(edge index, destination)` for every edge whose source is `u`. -/
def outEdges (es : List (Nat × Nat)) (u : Nat) : List (Nat × Nat) :=
  (List.range es.length).filterMap fun i =>
    if srcD es i = u then some (i, dstD es i) else none

/-- Out-degree of vertex `x` in the insertion sequence `es`. -/
def outdeg (es : List (Nat × Nat)) (x : Nat) : Nat :=
  es.countP fun uv => uv.1 == x

/-- In-degree of vertex `x` in the insertion sequence `es`. -/
def indeg (es : List (Nat × Nat)) (x : Nat) : Nat :=
  es.countP fun uv => uv.2 == x

/-- `IsTrail es a b l`: the edge indices `l`, read left to right, form a
walk from `a` to `b`: each edge leaves the vertex the previous one entered,
the first leaves `a`, the last enters `b` (and `a = b` for the empty
walk). -/
inductive IsTrail (es : List (Nat × Nat)) : Nat → Nat → List Nat → Prop
  | nil (a : Nat) : IsTrail es a a []
  | cons {a c : Nat} (e : Nat) {l : List Nat} (hsrc : srcD es e = a)
      (htrail : IsTrail es (dstD es e) c l) : IsTrail es a c (e :: l)

/-- One edge of `es` leads from `a` to `b`. -/
def EdgeStep (es : List (Nat × Nat)) (a b : Nat) : Prop := (a, b) ∈ es

/-- `b` is reachable from `a` along directed edges of `es`. -/
def Reach (es : List (Nat × Nat)) : Nat → Nat → Prop :=
  Relation.ReflTransGen (EdgeStep es)

/-- The iterator array `euler_path` starts from, as produced on a graph
built from `es`: each vertex's outgoing edges, newest first. -/
def initState (es : List (Nat × Nat)) (n : Nat) : List (List (Nat × Nat)) :=
  (List.range n).map fun u => (outEdges es u).reverse

/-- Remaining out-degree of `x` in a traversal state. -/
def stateOut (adj : List (List (Nat × Nat))) (x : Nat) : Nat :=
  (adj.getD x []).length

/-- Remaining in-degree of `x` in a traversal state. -/
def stateIn (adj : List (List (Nat × Nat))) (x : Nat) : Nat :=
  adj.flatten.countP fun p => p.2 == x

/-- The edge indices still present in a traversal state. -/
def stateEdges (adj : List (List (Nat × Nat))) : List Nat :=
  adj.flatten.map Prod.fst

/-- Well-formedness of an euler traversal state over the build sequence
`es` of a graph with `n` vertices: one entry list per vertex, every entry
`(e, v)` records a real edge `e` leaving that vertex and entering `v < n`,
and no edge index appears twice. -/
structure EulerState (n : Nat) (es : List (Nat × Nat))
    (adj : List (List (Nat × Nat))) : Prop where
  len : adj.length = n
  entries : ∀ w, ∀ p ∈ adj.getD w [], p.1 < es.length ∧ srcD es p.1 = w ∧
    dstD es p.1 = p.2 ∧ p.2 < n
  nodup : (stateEdges adj).Nodup

/-! ## Specification-side notions for `min_spanning_tree` -/

/-- One of the undirected pairs of `ps` whose index lies in `S` directly
joins vertices `x` and `y`. -/
def linkRel (ps : List (Nat × Nat)) (S : List Nat) (x y : Nat) : Prop :=
  ∃ k ∈ S, ps.getD k (0, 0) = (x, y) ∨ ps.getD k (0, 0) = (y, x)

/-- `x` and `y` are connected in the undirected graph whose edges are the
pairs of `ps` with index in `S`. -/
def connRel (ps : List (Nat × Nat)) (S : List Nat) : Nat → Nat → Prop :=
  Relation.EqvGen (linkRel ps S)

/-- The vertex set `{0, …, n-1}` up to connectivity through the pairs of
`ps` with index in `S`. -/
def connSetoid (n : Nat) (ps : List (Nat × Nat)) (S : List Nat) :
    Setoid (Fin n) :=
  ⟨fun a b => connRel ps S a.val b.val,
    ⟨fun a => Relation.EqvGen.refl a.val,
      fun h => Relation.EqvGen.symm _ _ h,
      fun h1 h2 => Relation.EqvGen.trans _ _ _ h1 h2⟩⟩

/-- Number of connected components of the undirected graph on the vertices
`{0, …, n-1}` whose edges are the pairs of `ps` with index in `S`. -/
noncomputable def numComponents (n : Nat) (ps : List (Nat × Nat))
    (S : List Nat) : Nat :=
  Nat.card (Quotient (connSetoid n ps S))

/-- Total weight of the pairs with index in `S`. -/
def mstWeight (w : List Int) (S : List Nat) : Int :=
  (S.map fun e => w.getD e 0).sum

/-- `F` is a spanning forest of the undirected graph described by the pair
list `ps` on `n` vertices: a duplicate-free list of pair indices, no pair
of which joins two vertices already connected through the remaining pairs
of `F`, realising every connection the full pair list realises. -/
def IsSpanningForest (n : Nat) (ps : List (Nat × Nat)) (F : List Nat) : Prop :=
  F.Nodup ∧ (∀ k ∈ F, k < ps.length) ∧
    (∀ k ∈ F,
      ¬ connRel ps (F.erase k) (ps.getD k (0, 0)).1 (ps.getD k (0, 0)).2) ∧
    (∀ x y, x < n → y < n →
      connRel ps (List.range ps.length) x y → connRel ps F x y)

/-- The accept/reject trace of Kruskal's filtering pass, stated abstractly:
with the pairs of index in `S` already accepted, processing the pair
indices `L` in order accepts exactly `K` — a pair is accepted iff its
endpoints are not yet connected through the pairs accepted before it. -/
inductive GreedyRun (ps : List (Nat × Nat)) :
    List Nat → List Nat → List Nat → Prop
  | nil (S : List Nat) : GreedyRun ps S [] []
  | keep {S : List Nat} {e : Nat} {L K : List Nat}
      (h : ¬ connRel ps S (ps.getD e (0, 0)).1 (ps.getD e (0, 0)).2)
      (hrun : GreedyRun ps (S ++ [e]) L K) : GreedyRun ps S (e :: L) (e :: K)
  | skip {S : List Nat} {e : Nat} {L K : List Nat}
      (h : connRel ps S (ps.getD e (0, 0)).1 (ps.getD e (0, 0)).2)
      (hrun : GreedyRun ps S L K) : GreedyRun ps S (e :: L) K

/-- Number of distinct representatives a union-find parent array assigns
to the vertices `{0, …, n-1}`. -/
def classesCard (p : List Nat) (n : Nat) : Nat :=
  ((Finset.range n).image fun x => DisjointSets.root p x).card

/-- The union-find parent array `p` represents, on the vertices
`{0, …, n-1}`, exactly the connectivity through the pairs of `ps` with
index in `S`. -/
def UFRep (n : Nat) (ps : List (Nat × Nat)) (S : List Nat)
    (p : List Nat) : Prop :=
  p.length = n ∧ DisjointSets.Inv p ∧
    ∀ x y, x < n → y < n →
      (DisjointSets.root p x = DisjointSets.root p y ↔ connRel ps S x y)

namespace DisjointSets

theorem step_of_ge {p : List Nat} {x : Nat} (h : p.length ≤ x) : step p x = x := by
  simp [step, List.getD_eq_getElem?_getD, List.getElem?_eq_none h]

theorem isRoot_of_ge {p : List Nat} {x : Nat} (h : p.length ≤ x) : isRoot p x :=
  step_of_ge h

theorem iterP_succ_outer (p : List Nat) (k x : Nat) :
    iterP p (k + 1) x = step p (iterP p k x) := by
  induction k generalizing x with
  | zero => rfl
  | succ k ih => rw [iterP, ih (step p x)]; rfl

theorem iterP_add (p : List Nat) (a b x : Nat) :
    iterP p (a + b) x = iterP p b (iterP p a x) := by
  induction b with
  | zero => rfl
  | succ b ih => rw [← Nat.add_assoc, iterP_succ_outer, iterP_succ_outer, ih]

theorem iterP_of_isRoot {p : List Nat} {x : Nat} (h : isRoot p x) (k : Nat) :
    iterP p k x = x := by
  induction k with
  | zero => rfl
  | succ k ih => rw [iterP_succ_outer, ih, h]

theorem iterP_stable {p : List Nat} {x k : Nat} (h : isRoot p (iterP p k x))
    {m : Nat} (hm : k ≤ m) : iterP p m x = iterP p k x := by
  obtain ⟨c, rfl⟩ := Nat.exists_eq_add_of_le hm
  rw [iterP_add, iterP_of_isRoot h]

theorem iterP_lt_length {p : List Nat} (hp : Inv p) {x : Nat}
    (hx : x < p.length) (k : Nat) : iterP p k x < p.length := by
  induction k with
  | zero => exact hx
  | succ k ih => rw [iterP_succ_outer]; exact hp.entries _ ih

/-- On a valid state, the chain from any in-range element hits a
representative after fewer than `p.length` steps (pigeonhole: the elements
visited before the first representative are pairwise distinct). -/
theorem exists_hit_lt {p : List Nat} (hp : Inv p) {x : Nat} (hx : x < p.length) :
    ∃ k, k < p.length ∧ isRoot p (iterP p k x) := by
  obtain ⟨k0, hk0⟩ := hp.reaches x hx
  have hex : ∃ k, isRoot p (iterP p k x) := ⟨k0, hk0⟩
  set k := Nat.find hex with hkdef
  have hkroot : isRoot p (iterP p k x) := Nat.find_spec hex
  refine ⟨k, ?_, hkroot⟩
  by_contra hge
  push_neg at hge
  -- the iterates `iterP p i x` for `i ≤ k` are pairwise distinct
  have hinj : ∀ i j, i < j → j ≤ k → iterP p i x ≠ iterP p j x := by
    intro i j hij hjk heq
    have hper : ∀ m, i ≤ m → iterP p (m + (j - i)) x = iterP p m x := by
      intro m hm
      obtain ⟨c, rfl⟩ := Nat.exists_eq_add_of_le hm
      have h1 : i + c + (j - i) = j + c := by omega
      rw [h1, iterP_add, iterP_add, ← heq]
    have hik : i ≤ k - (j - i) := by omega
    have := hper (k - (j - i)) hik
    have h2 : k - (j - i) + (j - i) = k := by omega
    rw [h2] at this
    have : isRoot p (iterP p (k - (j - i)) x) := by rw [← this]; exact hkroot
    have := Nat.find_min hex (m := k - (j - i)) (by omega)
    exact this ‹_›
  -- pigeonhole: `k + 1` distinct values below `p.length`
  have hnodup : ((List.range (k + 1)).map fun i => iterP p i x).Nodup := by
    refine List.Nodup.map_on ?_ (List.nodup_range _)
    intro i hi j hj hij
    simp only [List.mem_range] at hi hj
    by_contra hne
    rcases Nat.lt_or_ge i j with h | h
    · exact hinj i j h (by omega) hij
    · have hlt : j < i := by omega
      exact hinj j i hlt (by omega) hij.symm
  have hsub : ∀ y ∈ (List.range (k + 1)).map fun i => iterP p i x, y ∈ Finset.range p.length := by
    intro y hy
    simp only [List.mem_map, List.mem_range] at hy
    obtain ⟨i, _, rfl⟩ := hy
    simpa using iterP_lt_length hp hx i
  have hcard : ((List.range (k + 1)).map fun i => iterP p i x).toFinset.card =
      ((List.range (k + 1)).map fun i => iterP p i x).length :=
    List.toFinset_card_of_nodup hnodup
  have hsub2 : ((List.range (k + 1)).map fun i => iterP p i x).toFinset ⊆
      Finset.range p.length := by
    intro y hy
    rw [List.mem_toFinset] at hy
    exact hsub y hy
  have hle := Finset.card_le_card hsub2
  rw [hcard] at hle
  simp at hle
  omega

theorem root_isRoot {p : List Nat} (hp : Inv p) (x : Nat) : isRoot p (root p x) := by
  rcases Nat.lt_or_ge x p.length with hx | hx
  · obtain ⟨k, hk, hroot⟩ := exists_hit_lt hp hx
    have := iterP_stable hroot (m := p.length) (Nat.le_of_lt hk)
    rw [root, this]; exact hroot
  · rw [root, iterP_of_isRoot (isRoot_of_ge hx)]
    exact isRoot_of_ge hx

theorem root_of_isRoot {p : List Nat} {x : Nat} (h : isRoot p x) : root p x = x :=
  iterP_of_isRoot h p.length

theorem root_idem {p : List Nat} (hp : Inv p) (x : Nat) :
    root p (root p x) = root p x :=
  root_of_isRoot (root_isRoot hp x)

theorem root_lt_length {p : List Nat} (hp : Inv p) {x : Nat} (hx : x < p.length) :
    root p x < p.length :=
  iterP_lt_length hp hx p.length

/-- Any hit of a representative along the chain from `x` is `root p x`. -/
theorem root_eq_of_hit {p : List Nat} (hp : Inv p) {x k : Nat}
    (h : isRoot p (iterP p k x)) : root p x = iterP p k x := by
  rcases Nat.lt_or_ge p.length k with hk | hk
  · have h2 : isRoot p (iterP p p.length x) := root_isRoot hp x
    have := iterP_stable h2 (m := k) (Nat.le_of_lt hk)
    rw [root, ← this]
  · exact iterP_stable h hk

theorem root_step {p : List Nat} (hp : Inv p) (x : Nat) :
    root p (step p x) = root p x := by
  rcases Nat.lt_or_ge x p.length with hx | hx
  · obtain ⟨k, _, hroot⟩ := exists_hit_lt hp hx
    match k, hroot with
    | 0, hroot =>
      -- x itself is a root, so `step p x = x`
      have hx0 : step p x = x := hroot
      rw [hx0]
    | k + 1, hroot =>
      have hroot' : isRoot p (iterP p k (step p x)) := hroot
      rw [root_eq_of_hit hp hroot', root_eq_of_hit hp hroot]
      rfl
  · rw [step_of_ge hx]

theorem isRoot_iff_root_eq {p : List Nat} (hp : Inv p) {x : Nat} :
    isRoot p x ↔ root p x = x := by
  constructor
  · exact root_of_isRoot
  · intro h
    have := root_isRoot hp x
    rwa [h] at this

theorem step_set_self {p : List Nat} {a : Nat} (ha : a < p.length) (b : Nat) :
    step (p.set a b) a = b := by
  simp [step, List.getD_eq_getElem?_getD, List.getElem?_set_eq_of_lt b ha]

theorem step_set_ne {p : List Nat} {a x : Nat} (h : a ≠ x) (b : Nat) :
    step (p.set a b) x = step p x := by
  simp [step, List.getD_eq_getElem?_getD, List.getElem?_set_ne h]

/-- Path-compression step: re-pointing any element directly at its own
representative preserves validity and every element's representative. -/
theorem compress_spec {q : List Nat} (hq : Inv q) {a : Nat} (ha : a < q.length) :
    Inv (q.set a (root q a)) ∧ ∀ x, root (q.set a (root q a)) x = root q x := by
  set b := root q a with hbdef
  set q' := q.set a b with hqSet
  have hlen : q'.length = q.length := by simp [hqSet]
  have hbroot : isRoot q b := root_isRoot hq a
  have hbl : b < q.length := root_lt_length hq ha
  have hroots : ∀ x, isRoot q x → isRoot q' x := by
    intro x hx
    rcases eq_or_ne x a with heq | hne
    · have hxa : root q a = a := heq ▸ root_of_isRoot hx
      show step q' x = x
      rw [heq, step_set_self ha, ← hbdef] at *
      rw [hxa]
    · show step q' x = x
      rw [step_set_ne (Ne.symm hne)]; exact hx
  have hreach : ∀ k x, isRoot q (iterP q k x) →
      ∃ m, iterP q' m x = root q x ∧ isRoot q' (iterP q' m x) := by
    intro k
    induction k with
    | zero =>
      intro x hx
      have hx' : isRoot q x := hx
      exact ⟨0, (root_of_isRoot hx').symm, hroots x hx'⟩
    | succ k ih =>
      intro x hx
      by_cases hxroot : isRoot q x
      · exact ⟨0, (root_of_isRoot hxroot).symm, hroots x hxroot⟩
      · rcases eq_or_ne x a with heq | hne
        · refine ⟨1, ?_, ?_⟩
          · show step q' x = root q x
            rw [heq, step_set_self ha, ← hbdef]
          · show isRoot q' (step q' x)
            rw [heq, step_set_self ha]
            exact hroots b hbroot
        · have hstep : isRoot q (iterP q k (step q x)) := hx
          obtain ⟨m, hm1, hm2⟩ := ih (step q x) hstep
          refine ⟨m + 1, ?_, ?_⟩
          · show iterP q' m (step q' x) = root q x
            rw [step_set_ne (Ne.symm hne), hm1, root_step hq]
          · show isRoot q' (iterP q' m (step q' x))
            rw [step_set_ne (Ne.symm hne)]
            exact hm2
  have hinv : Inv q' := by
    constructor
    · intro x hx
      rw [hlen] at hx
      rcases eq_or_ne a x with rfl | hne
      · rw [step_set_self ha, hlen]; exact hbl
      · rw [step_set_ne hne, hlen]; exact hq.entries x hx
    · intro x hx
      rw [hlen] at hx
      obtain ⟨k, hk⟩ := hq.reaches x hx
      obtain ⟨m, _, hm2⟩ := hreach k x hk
      exact ⟨m, hm2⟩
  refine ⟨hinv, fun x => ?_⟩
  rcases Nat.lt_or_ge x q.length with hx | hx
  · obtain ⟨k, hk⟩ := hq.reaches x hx
    obtain ⟨m, hm1, hm2⟩ := hreach k x hk
    rw [root_eq_of_hit hinv hm2, hm1]
  · have hx' : q'.length ≤ x := by rw [hlen]; exact hx
    rw [root_of_isRoot (isRoot_of_ge hx'), root_of_isRoot (isRoot_of_ge hx)]

/-- Linking: pointing a representative `a` at a representative `b` merges
`a`'s class into `b`'s and moves no other element. -/
theorem link_spec {q : List Nat} (hq : Inv q) {a b : Nat}
    (haroot : isRoot q a) (ha : a < q.length)
    (hbroot : isRoot q b) (hb : b < q.length) :
    Inv (q.set a b) ∧
      ∀ x, root (q.set a b) x = if root q x = a then b else root q x := by
  set q' := q.set a b with hqSet
  have hlen : q'.length = q.length := by simp [hqSet]
  have hbroot' : isRoot q' b := by
    rcases eq_or_ne a b with rfl | hne
    · show step q' a = a
      rw [step_set_self ha]
    · show step q' b = b
      rw [step_set_ne hne]; exact hbroot
  have hroots : ∀ x, isRoot q x → x ≠ a → isRoot q' x := by
    intro x hx hne
    show step q' x = x
    rw [step_set_ne (Ne.symm hne)]; exact hx
  have hrootcase : ∀ x, isRoot q x →
      ∃ m, iterP q' m x = (if root q x = a then b else root q x) ∧
        isRoot q' (iterP q' m x) := by
    intro x hx
    rcases eq_or_ne x a with heq | hne
    · refine ⟨1, ?_, ?_⟩
      · show step q' x = _
        rw [heq, step_set_self ha, root_of_isRoot (heq ▸ hx), if_pos rfl]
      · show isRoot q' (step q' x)
        rw [heq, step_set_self ha]; exact hbroot'
    · refine ⟨0, ?_, hroots x hx hne⟩
      show x = _
      rw [root_of_isRoot hx, if_neg hne]
  have hreach : ∀ k x, isRoot q (iterP q k x) →
      ∃ m, iterP q' m x = (if root q x = a then b else root q x) ∧
        isRoot q' (iterP q' m x) := by
    intro k
    induction k with
    | zero =>
      intro x hx
      exact hrootcase x hx
    | succ k ih =>
      intro x hx
      by_cases hxroot : isRoot q x
      · exact hrootcase x hxroot
      · have hne : x ≠ a := fun h => hxroot (h ▸ haroot)
        have hstep : isRoot q (iterP q k (step q x)) := hx
        obtain ⟨m, hm1, hm2⟩ := ih (step q x) hstep
        refine ⟨m + 1, ?_, ?_⟩
        · show iterP q' m (step q' x) = _
          rw [step_set_ne (Ne.symm hne), hm1, root_step hq]
        · show isRoot q' (iterP q' m (step q' x))
          rw [step_set_ne (Ne.symm hne)]
          exact hm2
  have hinv : Inv q' := by
    constructor
    · intro x hx
      rw [hlen] at hx
      rcases eq_or_ne a x with rfl | hne
      · rw [step_set_self ha, hlen]; exact hb
      · rw [step_set_ne hne, hlen]; exact hq.entries x hx
    · intro x hx
      rw [hlen] at hx
      obtain ⟨k, hk⟩ := hq.reaches x hx
      obtain ⟨m, _, hm2⟩ := hreach k x hk
      exact ⟨m, hm2⟩
  refine ⟨hinv, fun x => ?_⟩
  rcases Nat.lt_or_ge x q.length with hx | hx
  · obtain ⟨k, hk⟩ := hq.reaches x hx
    obtain ⟨m, hm1, hm2⟩ := hreach k x hk
    rw [root_eq_of_hit hinv hm2, hm1]
  · have hx' : q'.length ≤ x := by rw [hlen]; exact hx
    have hxa : x ≠ a := by intro h; rw [h] at hx; omega
    rw [root_of_isRoot (isRoot_of_ge hx'), root_of_isRoot (isRoot_of_ge hx),
      if_neg ?_]
    intro h
    rw [← h] at ha
    omega

theorem getElem?_eq_step {p : List Nat} {u : Nat} (hu : u < p.length) :
    p[u]? = some (step p u) := by
  show p[u]? = some (p.getD u u)
  rw [List.getD_eq_getElem _ _ hu, List.getElem?_eq_getElem hu]

theorem get?_eq_step {p : List Nat} {u : Nat} (hu : u < p.length) :
    p.get? u = some (step p u) := by
  rw [List.get?_eq_getElem?]
  exact getElem?_eq_step hu

/-- What `findAux` computes on a valid state: the representative of `u`,
with enough fuel to cover the distance from `u` to its representative.
The compressed array keeps the length, validity, and every element's
representative. -/
theorem findAux_spec {p : List Nat} (hp : Inv p) :
    ∀ fuel u k, u < p.length → k < fuel → isRoot p (iterP p k u) →
    ∃ p', findAux fuel p u = some (p', root p u) ∧ p'.length = p.length ∧
      Inv p' ∧ ∀ x, root p' x = root p x := by
  intro fuel
  induction fuel with
  | zero => intro u k _ hk _; omega
  | succ fuel ih =>
    intro u k hu hk hroot
    by_cases hstep : step p u = u
    · refine ⟨p, ?_, rfl, hp, fun _ => rfl⟩
      rw [root_of_isRoot hstep]
      simp [findAux, getElem?_eq_step hu, hstep]
    · match k, hroot with
      | 0, hroot => exact absurd hroot hstep
      | k + 1, hroot =>
        have hpu : step p u < p.length := hp.entries u hu
        have hroot' : isRoot p (iterP p k (step p u)) := hroot
        obtain ⟨p1, heq, hlen1, hinv1, hroots1⟩ :=
          ih (step p u) k hpu (by omega) hroot'
        have hru : root p (step p u) = root p u := root_step hp u
        rw [hru] at heq
        have hu1 : u < p1.length := by rw [hlen1]; exact hu
        have hcomp := compress_spec hinv1 hu1
        have hr1u : root p1 u = root p u := hroots1 u
        rw [hr1u] at hcomp
        refine ⟨p1.set u (root p u), ?_, ?_, hcomp.1, ?_⟩
        · simp [findAux, getElem?_eq_step hu, hstep, heq]
        · rw [List.length_set, hlen1]
        · intro x
          rw [hcomp.2 x, hroots1 x]

/-- `DisjointSets::find` on a valid state returns the representative and
compresses paths without changing any element's representative. -/
theorem find_spec {p : List Nat} (hp : Inv p) {u : Nat} (hu : u < p.length) :
    ∃ p', find ⟨p⟩ u = some (⟨p'⟩, root p u) ∧ p'.length = p.length ∧
      Inv p' ∧ ∀ x, root p' x = root p x := by
  obtain ⟨k, hk, hroot⟩ := exists_hit_lt hp hu
  obtain ⟨p', heq, h1, h2, h3⟩ := findAux_spec hp p.length u k hu hk hroot
  exact ⟨p', by rw [find, heq]; rfl, h1, h2, h3⟩

/-- `DisjointSets::merge` on a valid state: returns whether the two
representatives differed, and attaches `u`'s representative under `v`'s. -/
theorem merge_spec {p : List Nat} (hp : Inv p) {u v : Nat}
    (hu : u < p.length) (hv : v < p.length) :
    ∃ p3, merge ⟨p⟩ u v = some (⟨p3⟩, root p u != root p v) ∧
      p3.length = p.length ∧ Inv p3 ∧
      (∀ x, root p3 x =
        if root p x = root p u then root p v else root p x) ∧
      step p3 (root p u) = root p v := by
  obtain ⟨p1, hfind1, hlen1, hinv1, hroots1⟩ := find_spec hp hu
  have hv1 : v < p1.length := by rw [hlen1]; exact hv
  obtain ⟨p2, hfind2, hlen2, hinv2, hroots2⟩ := find_spec hinv1 hv1
  have hv2 : root p1 v = root p v := hroots1 v
  have hpu2 : root p2 (root p u) = root p u := by
    rw [hroots2, hroots1, root_idem hp]
  have hpv2 : root p2 (root p v) = root p v := by
    rw [hroots2, hroots1, root_idem hp]
  have hpuroot : isRoot p2 (root p u) := (isRoot_iff_root_eq hinv2).2 hpu2
  have hpvroot : isRoot p2 (root p v) := (isRoot_iff_root_eq hinv2).2 hpv2
  have hpul : root p u < p2.length := by
    rw [hlen2, hlen1]; exact root_lt_length hp hu
  have hpvl : root p v < p2.length := by
    rw [hlen2, hlen1]; exact root_lt_length hp hv
  have hlink := link_spec hinv2 hpuroot hpul hpvroot hpvl
  rw [hv2] at hfind2
  refine ⟨p2.set (root p u) (root p v), ?_, ?_, hlink.1, ?_, ?_⟩
  · simp only [merge, hfind1, hfind2]
  · rw [List.length_set, hlen2, hlen1]
  · intro x
    rw [hlink.2 x, hroots2, hroots1]
  · exact step_set_self hpul _

theorem step_range (size : Nat) (x : Nat) : step (List.range size) x = x := by
  rcases Nat.lt_or_ge x size with hx | hx
  · show (List.range size).getD x x = x
    rw [List.getD_eq_getElem _ _ (by simpa using hx)]
    simp
  · exact step_of_ge (by simpa using hx)

/-- `DisjointSets::new` produces a valid state. -/
theorem new_inv (size : Nat) : Inv (new size).parent := by
  show Inv (List.range size)
  constructor
  · intro u hu
    rw [step_range]
    simpa using hu
  · intro u _
    exact ⟨0, step_range size u⟩

/-- On a fresh structure every element is its own representative. -/
theorem root_new (size : Nat) (x : Nat) : root (new size).parent x = x :=
  root_of_isRoot (step_range size x)

end DisjointSets

/-! ## Built graphs: array shapes and adjacency chains -/

theorem getD_set_self {α : Type} (l : List α) {a : Nat} (ha : a < l.length)
    (x d : α) : (l.set a x).getD a d = x := by
  rw [List.getD_eq_getElem?_getD, List.getElem?_set_eq_of_lt x ha]
  rfl

theorem getD_set_ne {α : Type} (l : List α) {a u : Nat} (h : a ≠ u)
    (x d : α) : (l.set a x).getD u d = l.getD u d := by
  rw [List.getD_eq_getElem?_getD, List.getElem?_set_ne h, ← List.getD_eq_getElem?_getD]

theorem getD_append_lt {α : Type} (l l' : List α) (d : α) {i : Nat}
    (h : i < l.length) : (l ++ l').getD i d = l.getD i d :=
  List.getD_append l l' d i h

theorem getD_concat_self {α : Type} (l : List α) (x d : α) :
    (l ++ [x]).getD l.length d = x := by
  rw [List.getD_append_right l [x] d l.length (Nat.le_refl _), Nat.sub_self]
  rfl

theorem getD_replicate_none {α : Type} (n u : Nat) :
    (List.replicate n (none : Option α)).getD u none = none := by
  rw [List.getD_eq_getElem?_getD, List.getElem?_replicate]
  split <;> rfl

namespace Graph

theorem getElem?_some_getD {α : Type} (l : List α) (d : α) {u : Nat}
    (hu : u < l.length) : l[u]? = some (l.getD u d) := by
  rw [List.getElem?_eq_getElem hu, List.getD_eq_getElem _ _ hu]

theorem get?_some_getD {α : Type} (l : List α) (d : α) {u : Nat}
    (hu : u < l.length) : l.get? u = some (l.getD u d) := by
  rw [List.get?_eq_getElem?]
  exact getElem?_some_getD l d hu

theorem add_edge_eq {g : Graph} {u : Nat} (hu : u < g.num_v) (v : Nat) :
    g.add_edge u v = some ⟨g.first.set u (some g.endp.length),
      g.next ++ [g.first.getD u none], g.endp ++ [v]⟩ := by
  rw [add_edge, get?_some_getD g.first none hu]

theorem add_edge_none {g : Graph} {u : Nat} (hu : g.num_v ≤ u) (v : Nat) :
    g.add_edge u v = none := by
  rw [add_edge, List.get?_eq_getElem?, List.getElem?_eq_none hu]

theorem add_edge_isSome_iff {g : Graph} {u v : Nat} :
    (g.add_edge u v).isSome = true ↔ u < g.num_v := by
  constructor
  · intro h
    by_contra hge
    rw [add_edge_none (Nat.le_of_not_lt hge) v] at h
    exact Bool.noConfusion h
  · intro h
    rw [add_edge_eq h v]
    rfl

theorem adjStreamAux_none (g : Graph) (fuel : Nat) :
    adjStreamAux g fuel none = some [] := by
  cases fuel <;> rfl

theorem adjStreamAux_succ_some {g : Graph} {e v : Nat} {ne : Option Nat}
    (hv : g.endp.get? e = some v) (hn : g.next.get? e = some ne) (fuel : Nat) :
    adjStreamAux g (fuel + 1) (some e) =
      (adjStreamAux g fuel ne).map fun l => (e, v) :: l := by
  show (match g.endp.get? e, g.next.get? e with
    | some v, some ne => (adjStreamAux g fuel ne).map fun l => (e, v) :: l
    | _, _ => none) = _
  rw [hv, hn]

/-- On a well-formed graph the iterator chain starting at a valid edge
pointer is insensitive to surplus fuel and never fails. -/
theorem adjStreamAux_fuel {g : Graph} (hg : GraphWF g) :
    ∀ e, e < g.next.length → ∀ f₁ f₂, e < f₁ → e < f₂ →
      adjStreamAux g f₁ (some e) = adjStreamAux g f₂ (some e) ∧
      ∃ l, adjStreamAux g f₁ (some e) = some l := by
  intro e
  induction e using Nat.strong_induction_on with
  | _ e ih =>
    intro he f₁ f₂ h₁ h₂
    match f₁, h₁, f₂, h₂ with
    | a + 1, h₁, b + 1, h₂ =>
      have hee : e < g.endp.length := by rw [hg.elen]; exact he
      have hv := get?_some_getD g.endp 0 hee
      have hn := get?_some_getD g.next none he
      rw [adjStreamAux_succ_some hv hn a, adjStreamAux_succ_some hv hn b]
      match hne : g.next.getD e none with
      | none =>
        rw [adjStreamAux_none g a, adjStreamAux_none g b]
        exact ⟨rfl, ⟨[(e, g.endp.getD e 0)], rfl⟩⟩
      | some e' =>
        have he' : e' < e := hg.nbound e e' he hne
        obtain ⟨hcong, l, hl⟩ := ih e' he' (by omega) a b (by omega) (by omega)
        have hl' : adjStreamAux g b (some e') = some l := by rw [← hcong]; exact hl
        rw [hcong, hl']
        exact ⟨rfl, ⟨(e, g.endp.getD e 0) :: l, rfl⟩⟩

/-- Appending one edge slot does not change iterator chains that start at a
previously valid pointer. -/
theorem adjStreamAux_extend {g g' : Graph} (hg : GraphWF g) {x : Option Nat}
    {y : Nat} (hnext : g'.next = g.next ++ [x]) (hendp : g'.endp = g.endp ++ [y]) :
    ∀ fuel (p : Option Nat), (∀ e, p = some e → e < g.next.length) →
      adjStreamAux g' fuel p = adjStreamAux g fuel p := by
  intro fuel
  induction fuel with
  | zero =>
    intro p _
    match p with
    | none => rfl
    | some e => rfl
  | succ fuel ihf =>
    intro p hp
    match p with
    | none => rfl
    | some e =>
      have he : e < g.next.length := hp e rfl
      have hee : e < g.endp.length := by rw [hg.elen]; exact he
      have hv' : g'.endp.get? e = some (g.endp.getD e 0) := by
        rw [List.get?_eq_getElem?, hendp, List.getElem?_append, if_pos hee]
        exact getElem?_some_getD g.endp 0 hee
      have hn' : g'.next.get? e = some (g.next.getD e none) := by
        rw [List.get?_eq_getElem?, hnext, List.getElem?_append, if_pos he]
        exact getElem?_some_getD g.next none he
      have hv := get?_some_getD g.endp 0 hee
      have hn := get?_some_getD g.next none he
      rw [adjStreamAux_succ_some hv' hn' fuel, adjStreamAux_succ_some hv hn fuel]
      match hne : g.next.getD e none with
      | none => rw [adjStreamAux_none, adjStreamAux_none]
      | some e' =>
        have he' : e' < e := hg.nbound e e' he hne
        have := ihf (some e') (by intro a ha; injection ha with ha; omega)
        rw [this]

theorem buildGraph_append (n : Nat) (es : List (Nat × Nat)) (a b : Nat) :
    buildGraph n (es ++ [(a, b)]) =
      (buildGraph n es).bind fun g => g.add_edge a b := by
  rw [buildGraph, buildGraph, List.foldlM_append]
  rcases h : List.foldlM (fun g uv => Graph.add_edge g uv.1 uv.2) (Graph.new n 0) es with
    _ | g <;> simp [h]

theorem outEdges_append (es : List (Nat × Nat)) (a b u : Nat) :
    outEdges (es ++ [(a, b)]) u =
      outEdges es u ++ (if a = u then [(es.length, b)] else []) := by
  rw [outEdges, outEdges, List.length_append, List.length_singleton,
    List.range_succ, List.filterMap_append]
  congr 1
  · apply List.filterMap_congr
    intro i hi
    rw [List.mem_range] at hi
    rw [srcD, dstD, srcD, dstD, getD_append_lt es [(a, b)] (0, 0) hi]
  · have h1 : srcD (es ++ [(a, b)]) es.length = a := by
      show ((es ++ [(a, b)]).getD es.length (0, 0)).1 = a
      rw [getD_concat_self]
    have h2 : dstD (es ++ [(a, b)]) es.length = b := by
      show ((es ++ [(a, b)]).getD es.length (0, 0)).2 = b
      rw [getD_concat_self]
    by_cases hau : a = u
    · subst hau
      rw [if_pos rfl]
      simp [List.filterMap_cons, h1, h2]
    · rw [if_neg hau]
      simp [List.filterMap_cons, h1, hau]

/-- The arrays of a graph built from the insertion sequence `es`:
`first` has the fixed vertex count, `endp` lists the destinations in
insertion order, pointers are well formed, sources are in range, and the
iterator chain of each vertex `u` lists `u`'s outgoing edges newest
first. -/
theorem buildGraph_spec : ∀ {n : Nat} {es : List (Nat × Nat)} {g : Graph},
    buildGraph n es = some g →
    g.first.length = n ∧ g.endp = es.map Prod.snd ∧ g.next.length = es.length ∧
    GraphWF g ∧ (∀ i, i < es.length → srcD es i < n) ∧
    ∀ u, u < n → adjStreamAux g g.num_e (g.first.getD u none) =
      some (outEdges es u).reverse := by
  intro n es
  induction es using List.reverseRecOn with
  | nil =>
    intro g h
    have hg : g = Graph.new n 0 := by
      rw [buildGraph] at h
      exact (Option.some.inj h).symm
    subst hg
    refine ⟨by simp [Graph.new], rfl, rfl, ⟨rfl, ?_, ?_⟩, ?_, ?_⟩
    · intro u e hue
      rw [show (Graph.new n 0).first = List.replicate n none from rfl,
        getD_replicate_none] at hue
      exact Option.noConfusion hue
    · intro i e hi
      exact absurd hi (Nat.not_lt_zero i)
    · intro i hi
      exact absurd hi (Nat.not_lt_zero i)
    · intro u _
      rw [show (Graph.new n 0).first = List.replicate n none from rfl,
        getD_replicate_none]
      rfl
  | append_singleton es uv ih =>
    intro g' h
    obtain ⟨a, b⟩ := uv
    rw [buildGraph_append] at h
    rcases hb : buildGraph n es with _ | g
    · rw [hb] at h; exact Option.noConfusion h
    rw [hb] at h
    simp only [Option.some_bind] at h
    obtain ⟨hfl, hendp, hnlen, hwf, hsrc, hadj⟩ := ih hb
    have ha : a < g.num_v := by
      by_contra hge
      rw [add_edge_none (Nat.le_of_not_lt hge) b] at h
      exact Option.noConfusion h
    rw [add_edge_eq ha b] at h
    set E := g.endp.length with hE
    have hEes : E = es.length := by rw [hE, hendp, List.length_map]
    have hg' : g' = ⟨g.first.set a (some E), g.next ++ [g.first.getD a none],
        g.endp ++ [b]⟩ := (Option.some.inj h).symm
    have han : a < n := by rw [← hfl]; exact ha
    have hnext' : g'.next = g.next ++ [g.first.getD a none] := by rw [hg']
    have hendp' : g'.endp = g.endp ++ [b] := by rw [hg']
    have hfirst' : g'.first = g.first.set a (some E) := by rw [hg']
    have hwf' : GraphWF g' := by
      constructor
      · rw [hnext', hendp']
        simp [hwf.elen]
      · intro u e hue
        rw [hfirst'] at hue
        rw [hnext', List.length_append, List.length_singleton]
        rcases eq_or_ne a u with heq | hne
        · rw [← heq, getD_set_self g.first ha] at hue
          injection hue with hue
          omega
        · rw [getD_set_ne g.first hne] at hue
          have := hwf.fbound u e hue
          omega
      · intro i e hi hie
        rw [hnext', List.length_append, List.length_singleton] at hi
        rw [hnext'] at hie
        have hnE : g.next.length = E := by rw [hnlen, hEes]
        rcases Nat.lt_or_ge i g.next.length with hilt | hige
        · rw [getD_append_lt g.next _ none hilt] at hie
          exact hwf.nbound i e hilt hie
        · have hiE : i = E := by omega
          rw [hiE, ← hnE, getD_concat_self] at hie
          have := hwf.fbound a e hie
          omega
    have hnum_e' : g'.num_e = E + 1 := by
      show g'.next.length = E + 1
      rw [hnext', List.length_append, List.length_singleton, hnlen, hEes]
    refine ⟨?_, ?_, ?_, hwf', ?_, ?_⟩
    · rw [hfirst', List.length_set, hfl]
    · rw [hendp', hendp, List.map_append]
      rfl
    · rw [hnext', List.length_append, List.length_singleton, hnlen,
        List.length_append, List.length_singleton]
    · intro i hi
      rw [List.length_append, List.length_singleton] at hi
      rcases Nat.lt_or_ge i es.length with hilt | hige
      · rw [srcD, getD_append_lt es _ (0, 0) hilt]
        exact hsrc i hilt
      · have hiE : i = es.length := by omega
        rw [srcD, hiE, getD_concat_self]
        exact han
    · intro u hu
      have hnE : g.next.length = E := by rw [hnlen, hEes]
      rcases eq_or_ne a u with heq | hne
      · -- the new edge heads `u`'s chain
        subst heq
        rw [hfirst', getD_set_self g.first ha, hnum_e']
        have hv' : g'.endp.get? E = some b := by
          rw [List.get?_eq_getElem?, hendp', hE, List.getElem?_concat_length]
        have hn' : g'.next.get? E = some (g.first.getD a none) := by
          rw [List.get?_eq_getElem?, hnext', ← hnE, List.getElem?_concat_length]
        have htail : adjStreamAux g' E (g.first.getD a none) =
            some (outEdges es a).reverse := by
          rw [adjStreamAux_extend hwf hnext' hendp' E (g.first.getD a none)
            (fun e hue => hwf.fbound a e hue)]
          rw [← hnE]
          show adjStreamAux g g.num_e (g.first.getD a none) = _
          exact hadj a han
        rw [outEdges_append, if_pos rfl, List.reverse_append, ← hEes,
          adjStreamAux_succ_some hv' hn' E, htail]
        rfl
      · rw [hfirst', getD_set_ne g.first hne]
        have hbound : ∀ e, g.first.getD u none = some e → e < g.next.length :=
          fun e hue => hwf.fbound u e hue
        rw [hnum_e',
          adjStreamAux_extend hwf hnext' hendp' (E + 1) (g.first.getD u none) hbound]
        rw [outEdges_append, if_neg hne, List.append_nil]
        have hadju := hadj u hu
        rcases hp : g.first.getD u none with _ | e
        · rw [hp, adjStreamAux_none] at hadju
          rw [adjStreamAux_none]
          exact hadju
        · have he : e < g.next.length := hbound e hp
          have heE : e < E := by rw [hnlen, ← hEes] at he; exact he
          have hcong := (adjStreamAux_fuel hwf e he (E + 1) g.num_e
            (by omega) (show e < g.next.length from he)).1
          rw [hcong]
          rw [hp] at hadju
          exact hadju

/-- `adj_list` on a built graph: the pairs of the fresh iterator are the
outgoing edges of `u`, newest first. -/
theorem adj_list_built {n : Nat} {es : List (Nat × Nat)} {g : Graph}
    (h : buildGraph n es = some g) {u : Nat} (hu : u < n) :
    g.adj_list u = some (outEdges es u).reverse := by
  obtain ⟨hfl, _, _, _, _, hadj⟩ := buildGraph_spec h
  have hu' : u < g.first.length := by rw [hfl]; exact hu
  rw [adj_list, get?_some_getD g.first none hu']
  exact hadj u hu

end Graph

theorem mem_outEdges {es : List (Nat × Nat)} {u i v : Nat} :
    (i, v) ∈ outEdges es u ↔ i < es.length ∧ srcD es i = u ∧ dstD es i = v := by
  rw [outEdges]
  constructor
  · intro h
    obtain ⟨j, hj, hf⟩ := List.mem_filterMap.1 h
    rw [List.mem_range] at hj
    by_cases hsrc : srcD es j = u
    · rw [if_pos hsrc] at hf
      injection hf with h1
      injection h1 with ha hb
      exact ⟨ha ▸ hj, ha ▸ hsrc, ha ▸ hb⟩
    · rw [if_neg hsrc] at hf
      exact Option.noConfusion hf
  · intro ⟨hi, hsrc, hdst⟩
    apply List.mem_filterMap.2
    exact ⟨i, List.mem_range.2 hi, by rw [if_pos hsrc, hdst]⟩

theorem outEdges_nodup (es : List (Nat × Nat)) (u : Nat) :
    (outEdges es u).Nodup := by
  rw [outEdges]
  apply List.Nodup.filterMap _ (List.nodup_range _)
  intro a a' b hb hb'
  have h1 : b.1 = a := by
    by_cases hs : srcD es a = u
    · rw [if_pos hs, Option.mem_def, Option.some.injEq] at hb
      rw [← hb]
    · rw [if_neg hs] at hb
      exact absurd hb (by simp)
  have h2 : b.1 = a' := by
    by_cases hs : srcD es a' = u
    · rw [if_pos hs, Option.mem_def, Option.some.injEq] at hb'
      rw [← hb']
    · rw [if_neg hs] at hb'
      exact absurd hb' (by simp)
  rw [← h1, h2]

/-! ## Undirected builds and the `e ^^^ 1` pairing -/

theorem two_mul_xor_one (k : Nat) : 2 * k ^^^ 1 = 2 * k + 1 := by
  have h := Nat.xor_bit false k true 0
  simpa [Nat.bit] using h

theorem two_mul_add_one_xor_one (k : Nat) : (2 * k + 1) ^^^ 1 = 2 * k := by
  have h := Nat.xor_bit true k true 0
  simpa [Nat.bit] using h

theorem undirPairs_cons (a b : Nat) (ps : List (Nat × Nat)) :
    undirPairs ((a, b) :: ps) = (a, b) :: (b, a) :: undirPairs ps := rfl

theorem undirPairs_length (ps : List (Nat × Nat)) :
    (undirPairs ps).length = 2 * ps.length := by
  induction ps with
  | nil => rfl
  | cons p ps ih =>
    obtain ⟨a, b⟩ := p
    rw [undirPairs_cons, List.length_cons, List.length_cons, ih, List.length_cons]
    omega

theorem undirPairs_getD_even (ps : List (Nat × Nat)) :
    ∀ k, k < ps.length →
      (undirPairs ps).getD (2 * k) (0, 0) =
        ((ps.getD k (0, 0)).1, (ps.getD k (0, 0)).2) := by
  induction ps with
  | nil => intro k hk; exact absurd hk (Nat.not_lt_zero k)
  | cons p ps ih =>
    intro k hk
    obtain ⟨a, b⟩ := p
    rw [undirPairs_cons]
    match k with
    | 0 => rfl
    | k + 1 =>
      have h2 : 2 * (k + 1) = (2 * k) + 1 + 1 := by omega
      rw [h2, List.getD_cons_succ, List.getD_cons_succ, List.getD_cons_succ,
        ih k (by simpa using Nat.lt_of_succ_lt_succ hk)]

theorem undirPairs_getD_odd (ps : List (Nat × Nat)) :
    ∀ k, k < ps.length →
      (undirPairs ps).getD (2 * k + 1) (0, 0) =
        ((ps.getD k (0, 0)).2, (ps.getD k (0, 0)).1) := by
  induction ps with
  | nil => intro k hk; exact absurd hk (Nat.not_lt_zero k)
  | cons p ps ih =>
    intro k hk
    obtain ⟨a, b⟩ := p
    rw [undirPairs_cons]
    match k with
    | 0 => rfl
    | k + 1 =>
      have h2 : 2 * (k + 1) + 1 = (2 * k + 1) + 1 + 1 := by omega
      rw [h2, List.getD_cons_succ, List.getD_cons_succ, List.getD_cons_succ,
        ih k (by simpa using Nat.lt_of_succ_lt_succ hk)]

theorem getD_map_snd (l : List (Nat × Nat)) {i : Nat} (h : i < l.length) :
    (l.map Prod.snd).getD i 0 = (l.getD i (0, 0)).2 := by
  rw [List.getD_eq_getElem _ _ (by simpa using h), List.getD_eq_getElem _ _ h,
    List.getElem_map]

theorem foldl_undirected_eq : ∀ (ps : List (Nat × Nat)) (g0 : Graph),
    ps.foldlM (fun g uv => g.add_undirected_edge uv.1 uv.2) g0 =
      (undirPairs ps).foldlM (fun g uv => g.add_edge uv.1 uv.2) g0 := by
  intro ps
  induction ps with
  | nil => intro g0; rfl
  | cons p ps ih =>
    intro g0
    obtain ⟨a, b⟩ := p
    rw [List.foldlM_cons, undirPairs_cons, List.foldlM_cons]
    show (g0.add_undirected_edge a b).bind _ = (g0.add_edge a b).bind _
    rw [Graph.add_undirected_edge]
    cases g0.add_edge a b with
    | none => rfl
    | some g1 =>
      rw [Option.some_bind, Option.some_bind, List.foldlM_cons]
      cases g1.add_edge b a with
      | none => rfl
      | some g2 =>
        rw [Option.some_bind]
        show List.foldlM (fun g uv => g.add_undirected_edge uv.1 uv.2) g2 ps =
          (some g2).bind fun init =>
            List.foldlM (fun g uv => g.add_edge uv.1 uv.2) init (undirPairs ps)
        rw [Option.some_bind]
        exact ih g2

theorem buildUndirected_eq (n : Nat) (ps : List (Nat × Nat)) :
    buildUndirected n ps = buildGraph n (undirPairs ps) := by
  rw [buildUndirected, buildGraph]
  exact foldl_undirected_eq ps (Graph.new n 0)

theorem buildUndirected_append (n : Nat) (ps : List (Nat × Nat)) (a b : Nat) :
    buildUndirected n (ps ++ [(a, b)]) =
      (buildUndirected n ps).bind fun g => g.add_undirected_edge a b := by
  rw [buildUndirected, buildUndirected, List.foldlM_append]
  rcases h : List.foldlM (fun g uv => Graph.add_undirected_edge g uv.1 uv.2)
      (Graph.new n 0) ps with _ | g <;> simp [h]

/-- Core of claim C8: on a graph built purely from undirected pairs, the
slot `e ^^^ 1` holds the reverse of edge `e`, so `endp[e ^^^ 1]` is the
source of edge `e`. -/
theorem undirected_reverse_core {n : Nat} {ps : List (Nat × Nat)} {g : Graph}
    (h : buildUndirected n ps = some g) :
    ∀ e, e < g.num_e → e ^^^ 1 ≠ e ∧ e ^^^ 1 < g.num_e ∧
      g.endp.getD (e ^^^ 1) 0 = srcD (undirPairs ps) e := by
  rw [buildUndirected_eq] at h
  obtain ⟨_, hendp, hnlen, _, _, _⟩ := Graph.buildGraph_spec h
  have hne : g.num_e = 2 * ps.length := by
    show g.next.length = _
    rw [hnlen, undirPairs_length]
  intro e he
  rw [hne] at he
  have hep : (undirPairs ps).length = 2 * ps.length := undirPairs_length ps
  rcases Nat.even_or_odd e with ⟨k, hk⟩ | ⟨k, hk⟩
  · have hk2 : e = 2 * k := by omega
    subst hk2
    have hkps : k < ps.length := by omega
    have hx : 2 * k ^^^ 1 = 2 * k + 1 := two_mul_xor_one k
    refine ⟨by omega, by rw [hx, hne]; omega, ?_⟩
    rw [hx, hendp, getD_map_snd _ (by rw [hep]; omega),
      undirPairs_getD_odd ps k hkps]
    show (ps.getD k (0, 0)).1 = ((undirPairs ps).getD (2 * k) (0, 0)).1
    rw [undirPairs_getD_even ps k hkps]
  · have hk2 : e = 2 * k + 1 := by omega
    subst hk2
    have hkps : k < ps.length := by omega
    have hx : (2 * k + 1) ^^^ 1 = 2 * k := two_mul_add_one_xor_one k
    refine ⟨by omega, by rw [hx, hne]; omega, ?_⟩
    rw [hx, hendp, getD_map_snd _ (by rw [hep]; omega),
      undirPairs_getD_even ps k hkps]
    show (ps.getD k (0, 0)).2 = ((undirPairs ps).getD (2 * k + 1) (0, 0)).1
    rw [undirPairs_getD_odd ps k hkps]

/-! ## Euler traversal states -/

theorem set_getD_self {α : Type} (L : List α) {u : Nat} (hu : u < L.length)
    (d : α) : L.set u (L.getD u d) = L := by
  apply List.ext_getElem
  · rw [List.length_set]
  · intro i h1 h2
    rw [List.getElem_set]
    rcases eq_or_ne u i with rfl | hne
    · rw [if_pos rfl, List.getD_eq_getElem _ _ h2]
    · rw [if_neg hne]

theorem flatten_set_cons_perm {α : Type} :
    ∀ (L : List (List α)) (u : Nat), u < L.length → ∀ (x : α) (l : List α),
      (L.set u (x :: l)).flatten.Perm (x :: (L.set u l).flatten) := by
  intro L
  induction L with
  | nil => intro u hu; exact absurd hu (Nat.not_lt_zero u)
  | cons A L ih =>
    intro u hu x l
    match u with
    | 0 => exact List.Perm.refl _
    | u + 1 =>
      show (A ++ ((L.set u (x :: l)).flatten)).Perm (x :: (A ++ (L.set u l).flatten))
      have h1 := ih u (by simpa using Nat.lt_of_succ_lt_succ hu) x l
      exact (List.Perm.append_left A h1).trans List.perm_middle

/-- Popping the head entry of vertex `u`'s list removes exactly that pair
from the state's flattened content. -/
theorem flatten_pop_perm {adj : List (List (Nat × Nat))} {u : Nat}
    (hu : u < adj.length) {e v : Nat} {rest : List (Nat × Nat)}
    (h : adj.getD u [] = (e, v) :: rest) :
    adj.flatten.Perm ((e, v) :: (adj.set u rest).flatten) := by
  have h0 : adj = adj.set u ((e, v) :: rest) := by
    rw [← h, set_getD_self adj hu]
  have h2 := flatten_set_cons_perm adj u hu (e, v) rest
  rw [← h0] at h2
  exact h2

theorem stateEdges_pop_perm {adj : List (List (Nat × Nat))} {u : Nat}
    (hu : u < adj.length) {e v : Nat} {rest : List (Nat × Nat)}
    (h : adj.getD u [] = (e, v) :: rest) :
    (stateEdges adj).Perm (e :: stateEdges (adj.set u rest)) :=
  (flatten_pop_perm hu h).map Prod.fst

theorem stateSize_eq_length_stateEdges (adj : List (List (Nat × Nat))) :
    stateSize adj = (stateEdges adj).length := by
  show (adj.map List.length).sum = (adj.flatten.map Prod.fst).length
  rw [List.length_map, List.length_join]

/-- Unfolding `eulerRecurse` when the current vertex's iterator is
exhausted. -/
theorem eulerRecurse_succ_nil {adj : List (List (Nat × Nat))} {u fuel : Nat}
    (h : adj.get? u = some []) :
    eulerRecurse (fuel + 1) adj u = some (adj, []) := by
  show (match adj.get? u with
    | none => none
    | some [] => some (adj, [])
    | some ((e, v) :: rest) =>
      match eulerRecurse fuel (adj.set u rest) v with
      | none => none
      | some (adj2, b1) =>
        match eulerRecurse fuel adj2 u with
        | none => none
        | some (adj3, b2) => some (adj3, b1 ++ e :: b2)) = _
  rw [h]

/-- Unfolding `eulerRecurse` when the current vertex is out of range
(the Rust original panics on `adj[u]`). -/
theorem eulerRecurse_succ_oob {adj : List (List (Nat × Nat))} {u fuel : Nat}
    (h : adj.get? u = none) :
    eulerRecurse (fuel + 1) adj u = none := by
  show (match adj.get? u with
    | none => none
    | some [] => some (adj, [])
    | some ((e, v) :: rest) =>
      match eulerRecurse fuel (adj.set u rest) v with
      | none => none
      | some (adj2, b1) =>
        match eulerRecurse fuel adj2 u with
        | none => none
        | some (adj3, b2) => some (adj3, b1 ++ e :: b2)) = _
  rw [h]

/-- Unfolding `eulerRecurse` on one loop iteration: consume the head edge
`(e, v)`, recurse into `v`, then continue the loop at `u`. -/
theorem eulerRecurse_succ_cons {adj : List (List (Nat × Nat))}
    {u fuel e v : Nat} {rest : List (Nat × Nat)}
    (h : adj.get? u = some ((e, v) :: rest)) :
    eulerRecurse (fuel + 1) adj u =
      match eulerRecurse fuel (adj.set u rest) v with
      | none => none
      | some (adj2, b1) =>
        match eulerRecurse fuel adj2 u with
        | none => none
        | some (adj3, b2) => some (adj3, b1 ++ e :: b2) := by
  show (match adj.get? u with
    | none => none
    | some [] => some (adj, [])
    | some ((e, v) :: rest) =>
      match eulerRecurse fuel (adj.set u rest) v with
      | none => none
      | some (adj2, b1) =>
        match eulerRecurse fuel adj2 u with
        | none => none
        | some (adj3, b2) => some (adj3, b1 ++ e :: b2)) = _
  rw [h]

theorem eulerRecurse_succ_cons_some {adj adj2 adj3 : List (List (Nat × Nat))}
    {u fuel e v : Nat} {rest : List (Nat × Nat)} {b1 b2 : List Nat}
    (h : adj.get? u = some ((e, v) :: rest))
    (h1 : eulerRecurse fuel (adj.set u rest) v = some (adj2, b1))
    (h2 : eulerRecurse fuel adj2 u = some (adj3, b2)) :
    eulerRecurse (fuel + 1) adj u = some (adj3, b1 ++ e :: b2) := by
  rw [eulerRecurse_succ_cons h, h1]
  show (match eulerRecurse fuel adj2 u with
    | none => none
    | some (adj3, b2) => some (adj3, b1 ++ e :: b2)) = _
  rw [h2]

theorem eulerRecurse_succ_cons_none1 {adj : List (List (Nat × Nat))}
    {u fuel e v : Nat} {rest : List (Nat × Nat)}
    (h : adj.get? u = some ((e, v) :: rest))
    (h1 : eulerRecurse fuel (adj.set u rest) v = none) :
    eulerRecurse (fuel + 1) adj u = none := by
  rw [eulerRecurse_succ_cons h, h1]

theorem eulerRecurse_succ_cons_none2 {adj adj2 : List (List (Nat × Nat))}
    {u fuel e v : Nat} {rest : List (Nat × Nat)} {b1 : List Nat}
    (h : adj.get? u = some ((e, v) :: rest))
    (h1 : eulerRecurse fuel (adj.set u rest) v = some (adj2, b1))
    (h2 : eulerRecurse fuel adj2 u = none) :
    eulerRecurse (fuel + 1) adj u = none := by
  rw [eulerRecurse_succ_cons h, h1]
  show (match eulerRecurse fuel adj2 u with
    | none => none
    | some (adj3, b2) => some (adj3, b1 ++ e :: b2)) = _
  rw [h2]

theorem stateSize_set_cons {adj : List (List (Nat × Nat))} {u : Nat}
    (hu : u < adj.length) {e v : Nat} {rest : List (Nat × Nat)}
    (h : adj.getD u [] = (e, v) :: rest) :
    stateSize adj = stateSize (adj.set u rest) + 1 := by
  rw [stateSize_eq_length_stateEdges, stateSize_eq_length_stateEdges,
    (stateEdges_pop_perm hu h).length_eq, List.length_cons]

/-- Fuel-independence of `eulerRecurse` past `stateSize adj`, and the
consumption accounting: the result removes a sub-collection of the state's
edges and pushes exactly those.  This is the termination argument: every
loop iteration first consumes one edge, so the recursion bottoms out. -/
theorem eulerRecurse_fuel : ∀ f1 : Nat, ∀ (adj : List (List (Nat × Nat)))
    (u f2 : Nat), stateSize adj < f1 → stateSize adj < f2 →
    eulerRecurse f1 adj u = eulerRecurse f2 adj u ∧
    ∀ adj' b, eulerRecurse f1 adj u = some (adj', b) →
      adj'.length = adj.length ∧ (stateEdges adj).Perm (b ++ stateEdges adj') := by
  intro f1
  induction f1 with
  | zero => intro adj u f2 h1 _; omega
  | succ f1 ih =>
    intro adj u f2 h1 h2
    match f2, h2 with
    | f2 + 1, h2 =>
      match hget : adj.get? u with
      | none =>
        refine ⟨?_, ?_⟩
        · rw [eulerRecurse_succ_oob hget, eulerRecurse_succ_oob hget]
        · intro adj' b hsome
          rw [eulerRecurse_succ_oob hget] at hsome
          exact Option.noConfusion hsome
      | some [] =>
        refine ⟨?_, ?_⟩
        · rw [eulerRecurse_succ_nil hget, eulerRecurse_succ_nil hget]
        · intro adj' b hsome
          rw [eulerRecurse_succ_nil hget] at hsome
          injection Option.some.inj hsome with ha hb
          rw [← ha, ← hb]
          exact ⟨rfl, List.Perm.refl _⟩
      | some ((e, v) :: rest) =>
        have hu : u < adj.length := by
          by_contra hge
          rw [List.get?_eq_getElem?, List.getElem?_eq_none (Nat.le_of_not_lt hge)]
            at hget
          exact Option.noConfusion hget
        have hgetD : adj.getD u [] = (e, v) :: rest := by
          have := Graph.get?_some_getD adj [] hu
          rw [hget] at this
          exact (Option.some.inj this).symm
        have hsize1 : stateSize adj = stateSize (adj.set u rest) + 1 :=
          stateSize_set_cons hu hgetD
        have hlt1 : stateSize (adj.set u rest) < f1 := by omega
        have hlt2 : stateSize (adj.set u rest) < f2 := by omega
        obtain ⟨hcong1, hprops1⟩ := ih (adj.set u rest) v f2 hlt1 hlt2
        match hrec1 : eulerRecurse f1 (adj.set u rest) v with
        | none =>
          have hrec1' : eulerRecurse f2 (adj.set u rest) v = none := by
            rw [← hcong1]; exact hrec1
          refine ⟨?_, ?_⟩
          · rw [eulerRecurse_succ_cons_none1 hget hrec1,
              eulerRecurse_succ_cons_none1 hget hrec1']
          · intro adj' b hsome
            rw [eulerRecurse_succ_cons_none1 hget hrec1] at hsome
            exact Option.noConfusion hsome
        | some (adj2, b1) =>
          have hrec1' : eulerRecurse f2 (adj.set u rest) v = some (adj2, b1) := by
            rw [← hcong1]; exact hrec1
          obtain ⟨hlen2, hperm2⟩ := hprops1 adj2 b1 hrec1
          have hsize2 : stateSize adj2 ≤ stateSize (adj.set u rest) := by
            rw [stateSize_eq_length_stateEdges, stateSize_eq_length_stateEdges,
              hperm2.length_eq, List.length_append]
            omega
          have hlt3 : stateSize adj2 < f1 := by omega
          have hlt4 : stateSize adj2 < f2 := by omega
          obtain ⟨hcong3, hprops3⟩ := ih adj2 u f2 hlt3 hlt4
          match hrec2 : eulerRecurse f1 adj2 u with
          | none =>
            have hrec2' : eulerRecurse f2 adj2 u = none := by
              rw [← hcong3]; exact hrec2
            refine ⟨?_, ?_⟩
            · rw [eulerRecurse_succ_cons_none2 hget hrec1 hrec2,
                eulerRecurse_succ_cons_none2 hget hrec1' hrec2']
            · intro adj' b hsome
              rw [eulerRecurse_succ_cons_none2 hget hrec1 hrec2] at hsome
              exact Option.noConfusion hsome
          | some (adj3, b2) =>
            have hrec2' : eulerRecurse f2 adj2 u = some (adj3, b2) := by
              rw [← hcong3]; exact hrec2
            obtain ⟨hlen3, hperm3⟩ := hprops3 adj3 b2 hrec2
            refine ⟨?_, ?_⟩
            · rw [eulerRecurse_succ_cons_some hget hrec1 hrec2,
                eulerRecurse_succ_cons_some hget hrec1' hrec2']
            · intro adj' b hsome
              rw [eulerRecurse_succ_cons_some hget hrec1 hrec2] at hsome
              injection Option.some.inj hsome with ha hb
              rw [← ha, ← hb]
              constructor
              · rw [hlen3, hlen2, List.length_set]
              · have hshape : (b1 ++ e :: b2) ++ stateEdges adj3 =
                    b1 ++ e :: (b2 ++ stateEdges adj3) := by
                  rw [List.append_assoc]
                  rfl
                have hlast : (e :: (b1 ++ (b2 ++ stateEdges adj3))).Perm
                    ((b1 ++ e :: b2) ++ stateEdges adj3) := by
                  rw [hshape]
                  exact List.perm_middle.symm
                exact (stateEdges_pop_perm hu hgetD).trans
                  ((hperm2.cons e).trans
                    (((hperm3.append_left b1).cons e).trans hlast))


theorem kruskalGo_cons {g : Graph} {e x y : Nat} {L : List Nat}
    {c : DisjointSets} (hx : g.endp.get? (2 * e) = some x)
    (hy : g.endp.get? (2 * e + 1) = some y) :
    Graph.kruskalGo g (e :: L) c =
      match c.merge x y with
      | none => none
      | some (c1, keep) =>
        (Graph.kruskalGo g L c1).map fun l => if keep then e :: l else l := by
  show (match g.endp.get? (2 * e), g.endp.get? (2 * e + 1) with
    | some x, some y =>
      match c.merge x y with
      | none => none
      | some (c1, keep) =>
        (Graph.kruskalGo g L c1).map fun l => if keep then e :: l else l
    | _, _ => none) = _
  rw [hx, hy]

theorem kruskalGo_cons_merge {g : Graph} {e x y : Nat} {L : List Nat}
    {c c1 : DisjointSets} {keep : Bool} (hx : g.endp.get? (2 * e) = some x)
    (hy : g.endp.get? (2 * e + 1) = some y) (hm : c.merge x y = some (c1, keep)) :
    Graph.kruskalGo g (e :: L) c =
      (Graph.kruskalGo g L c1).map fun l => if keep then e :: l else l := by
  rw [kruskalGo_cons hx hy, hm]

/-- With endpoints that are valid vertices and slot indices in range, the
filtering pass of `min_spanning_tree` never panics. -/
theorem kruskalGo_some (g : Graph) :
    ∀ (L : List Nat) (p : List Nat), DisjointSets.Inv p → p.length = g.num_v →
      (∀ e ∈ L, 2 * e + 1 < g.endp.length) →
      (∀ e ∈ L, g.endp.getD (2 * e) 0 < g.num_v ∧
        g.endp.getD (2 * e + 1) 0 < g.num_v) →
      ∃ K, Graph.kruskalGo g L ⟨p⟩ = some K := by
  intro L
  induction L with
  | nil => intro p _ _ _ _; exact ⟨[], rfl⟩
  | cons e L ih =>
    intro p hinv hlen hbound hvert
    have he2 : 2 * e + 1 < g.endp.length := hbound e (List.mem_cons_self e L)
    have hx := Graph.get?_some_getD g.endp 0 (show 2 * e < g.endp.length by omega)
    have hy := Graph.get?_some_getD g.endp 0 he2
    have hxy := hvert e (List.mem_cons_self e L)
    have hxv : g.endp.getD (2 * e) 0 < p.length := by rw [hlen]; exact hxy.1
    have hyv : g.endp.getD (2 * e + 1) 0 < p.length := by rw [hlen]; exact hxy.2
    obtain ⟨p3, hmerge, hlen3, hinv3, _, _⟩ := DisjointSets.merge_spec hinv hxv hyv
    obtain ⟨K, hK⟩ := ih p3 hinv3 (by rw [hlen3, hlen])
      (fun f hf => hbound f (List.mem_cons_of_mem e hf))
      (fun f hf => hvert f (List.mem_cons_of_mem e hf))
    refine ⟨if (DisjointSets.root p (g.endp.getD (2 * e) 0) !=
        DisjointSets.root p (g.endp.getD (2 * e + 1) 0)) then e :: K else K, ?_⟩
    rw [kruskalGo_cons_merge hx hy hmerge, hK]
    rfl

/-! ## The initial traversal state of `euler_path` -/

theorem mapM_some {α β : Type} (f : α → Option β) (g : α → β) :
    ∀ l : List α, (∀ x ∈ l, f x = some (g x)) → l.mapM f = some (l.map g) := by
  intro l
  induction l with
  | nil => intro _; rfl
  | cons x l ih =>
    intro h
    rw [List.mapM_cons, h x (List.mem_cons_self x l),
      ih fun y hy => h y (List.mem_cons_of_mem x hy)]
    rfl

theorem initAdj_built {n : Nat} {es : List (Nat × Nat)} {g : Graph}
    (h : buildGraph n es = some g) : g.initAdj = some (initState es n) := by
  obtain ⟨hfl, _, _, _, _, _⟩ := Graph.buildGraph_spec h
  rw [Graph.initAdj, show g.num_v = n from hfl]
  exact mapM_some _ _ _ fun u hu => Graph.adj_list_built h (List.mem_range.1 hu)

theorem initState_length (es : List (Nat × Nat)) (n : Nat) :
    (initState es n).length = n := by
  show ((List.range n).map _).length = n
  rw [List.length_map, List.length_range]

theorem initState_getD {es : List (Nat × Nat)} {n w : Nat} (hw : w < n) :
    (initState es n).getD w [] = (outEdges es w).reverse := by
  show ((List.range n).map fun u => (outEdges es u).reverse).getD w [] = _
  rw [List.getD_eq_getElem _ _
    (by rw [List.length_map, List.length_range]; exact hw),
    List.getElem_map, List.getElem_range]

theorem map_range_eq_set {β : Type} (n a : Nat) (ha : a < n) (f f' : Nat → β)
    (hff : ∀ u, u ≠ a → f' u = f u) :
    (List.range n).map f' = ((List.range n).map f).set a (f' a) := by
  apply List.ext_getElem
  · rw [List.length_map, List.length_set, List.length_map]
  · intro i h1 h2
    rw [List.getElem_map, List.getElem_set, List.getElem_range]
    rcases eq_or_ne a i with rfl | hne
    · rw [if_pos rfl]
    · rw [if_neg hne, List.getElem_map, List.getElem_range, hff i (Ne.symm hne)]

theorem srcD_append_lt (es es' : List (Nat × Nat)) {i : Nat}
    (h : i < es.length) : srcD (es ++ es') i = srcD es i := by
  show ((es ++ es').getD i (0, 0)).1 = (es.getD i (0, 0)).1
  rw [getD_append_lt es es' (0, 0) h]

theorem dstD_append_lt (es es' : List (Nat × Nat)) {i : Nat}
    (h : i < es.length) : dstD (es ++ es') i = dstD es i := by
  show ((es ++ es').getD i (0, 0)).2 = (es.getD i (0, 0)).2
  rw [getD_append_lt es es' (0, 0) h]

theorem srcD_concat (es : List (Nat × Nat)) (p : Nat × Nat) :
    srcD (es ++ [p]) es.length = p.1 := by
  show ((es ++ [p]).getD es.length (0, 0)).1 = p.1
  rw [getD_concat_self]

theorem dstD_concat (es : List (Nat × Nat)) (p : Nat × Nat) :
    dstD (es ++ [p]) es.length = p.2 := by
  show ((es ++ [p]).getD es.length (0, 0)).2 = p.2
  rw [getD_concat_self]

theorem initState_append {es : List (Nat × Nat)} {n a : Nat} (ha : a < n)
    (b : Nat) :
    initState (es ++ [(a, b)]) n =
      (initState es n).set a ((es.length, b) :: (initState es n).getD a []) := by
  have hmain := map_range_eq_set n a ha
    (fun u => (outEdges es u).reverse)
    (fun u => (outEdges (es ++ [(a, b)]) u).reverse)
    (fun u hu => by
      show (outEdges (es ++ [(a, b)]) u).reverse = (outEdges es u).reverse
      rw [Graph.outEdges_append, if_neg (Ne.symm hu), List.append_nil])
  show (List.range n).map (fun u => (outEdges (es ++ [(a, b)]) u).reverse) = _
  rw [hmain, initState_getD ha]
  congr 1
  show (outEdges (es ++ [(a, b)]) a).reverse =
    (es.length, b) :: (outEdges es a).reverse
  rw [Graph.outEdges_append, if_pos rfl, List.reverse_append]
  rfl

/-- The pairs initially distributed over the iterator array are exactly
`(i, destination of edge i)` for every edge `i`, each once. -/
theorem statePairs_init_perm :
    ∀ {es : List (Nat × Nat)} {n : Nat}, (∀ i, i < es.length → srcD es i < n) →
      (initState es n).flatten.Perm
        ((List.range es.length).map fun i => (i, dstD es i)) := by
  intro es
  induction es using List.reverseRecOn with
  | nil =>
    intro n _
    have h1 : (initState [] n).flatten = [] := by
      rw [List.flatten_eq_nil_iff]
      intro x hx
      obtain ⟨u, _, rfl⟩ := List.mem_map.1
        (show x ∈ (List.range n).map (fun u => (outEdges [] u).reverse) from hx)
      rfl
    rw [h1]
    exact List.Perm.refl _
  | append_singleton es p ih =>
    intro n hsrc'
    obtain ⟨a, b⟩ := p
    have ha : a < n := by
      have h2 := hsrc' es.length
        (by rw [List.length_append, List.length_singleton]; omega)
      rwa [srcD_concat es (a, b)] at h2
    have hsrc : ∀ i, i < es.length → srcD es i < n := by
      intro i hi
      have h2 := hsrc' i (by rw [List.length_append]; omega)
      rwa [srcD_append_lt es [(a, b)] hi] at h2
    have hlen : a < (initState es n).length := by
      rw [initState_length]; exact ha
    have hstep : (initState (es ++ [(a, b)]) n).flatten.Perm
        ((es.length, b) :: (initState es n).flatten) := by
      rw [initState_append ha b]
      have h1 := flatten_set_cons_perm (initState es n) a hlen (es.length, b)
        ((initState es n).getD a [])
      rwa [set_getD_self (initState es n) hlen] at h1
    have hrhs : ((List.range (es ++ [(a, b)]).length).map
        fun i => (i, dstD (es ++ [(a, b)]) i)) =
        ((List.range es.length).map fun i => (i, dstD es i)) ++
          [(es.length, b)] := by
      rw [List.length_append, List.length_singleton, List.range_succ,
        List.map_append]
      congr 1
      · apply List.map_congr_left
        intro i hi
        rw [List.mem_range] at hi
        rw [dstD_append_lt es [(a, b)] hi]
      · show [(es.length, dstD (es ++ [(a, b)]) es.length)] = [(es.length, b)]
        rw [dstD_concat es (a, b)]
    rw [hrhs]
    exact hstep.trans (((ih hsrc).cons _).trans
      (List.perm_append_singleton _ _).symm)

theorem stateEdges_init_perm {es : List (Nat × Nat)} {n : Nat}
    (h : ∀ i, i < es.length → srcD es i < n) :
    (stateEdges (initState es n)).Perm (List.range es.length) := by
  have h1 := (statePairs_init_perm h).map Prod.fst
  rwa [List.map_map,
    show (Prod.fst ∘ fun i : Nat => (i, dstD es i)) = id from funext fun i => rfl,
    List.map_id] at h1

theorem countP_eq_countP_range {α : Type} (p : α → Bool) (d : α) :
    ∀ es : List α,
      es.countP p = (List.range es.length).countP fun i => p (es.getD i d) := by
  intro es
  induction es using List.reverseRecOn with
  | nil => rfl
  | append_singleton es x ih =>
    rw [List.countP_append, List.length_append, List.length_singleton,
      List.range_succ, List.countP_append]
    congr 1
    · rw [ih]
      apply List.countP_congr
      intro i hi
      rw [List.mem_range] at hi
      rw [getD_append_lt es [x] d hi]
    · show List.countP p [x] =
        List.countP (fun i => p ((es ++ [x]).getD i d)) [es.length]
      rw [List.countP_cons, List.countP_cons, List.countP_nil, List.countP_nil,
        getD_concat_self]

theorem stateIn_init {es : List (Nat × Nat)} {n : Nat}
    (hsrc : ∀ i, i < es.length → srcD es i < n) (w : Nat) :
    stateIn (initState es n) w = indeg es w := by
  show (initState es n).flatten.countP (fun p => p.2 == w) =
    es.countP fun uv => uv.2 == w
  rw [(statePairs_init_perm hsrc).countP_eq, List.countP_map,
    countP_eq_countP_range (fun uv => uv.2 == w) (0, 0) es]
  rfl

theorem length_filterMap_if {α β : Type} (c : α → Prop) [DecidablePred c]
    (f : α → β) :
    ∀ l : List α,
      (l.filterMap fun x => if c x then some (f x) else none).length =
        l.countP fun x => decide (c x) := by
  intro l
  induction l with
  | nil => rfl
  | cons x l ih =>
    rw [List.filterMap_cons, List.countP_cons]
    by_cases h : c x
    · rw [if_pos h, List.length_cons, ih, decide_eq_true h, if_pos rfl]
    · rw [if_neg h, ih, decide_eq_false h, if_neg Bool.false_ne_true]
      rfl

theorem stateOut_init {es : List (Nat × Nat)} {n w : Nat} (hw : w < n) :
    stateOut (initState es n) w = outdeg es w := by
  show ((initState es n).getD w []).length = es.countP fun uv => uv.1 == w
  rw [initState_getD hw, List.length_reverse]
  show ((List.range es.length).filterMap fun i =>
    if srcD es i = w then some (i, dstD es i) else none).length = _
  rw [length_filterMap_if (fun i => srcD es i = w) (fun i => (i, dstD es i))
    (List.range es.length),
    countP_eq_countP_range (fun uv => uv.1 == w) (0, 0) es]
  apply List.countP_congr
  intro i _
  show decide (srcD es i = w) = true ↔ ((es.getD i (0, 0)).1 == w) = true
  rw [decide_eq_true_eq, beq_iff_eq]
  exact Iff.rfl

theorem stateOut_ge {adj : List (List (Nat × Nat))} {w : Nat}
    (hw : adj.length ≤ w) : stateOut adj w = 0 := by
  show (adj.getD w []).length = 0
  rw [List.getD_eq_default _ _ hw]
  rfl

theorem IsTrail.append {es : List (Nat × Nat)} :
    ∀ {a b c : Nat} {l1 l2 : List Nat}, IsTrail es a b l1 →
      IsTrail es b c l2 → IsTrail es a c (l1 ++ l2) := by
  intro a b c l1 l2 h1
  induction h1 with
  | nil _ => intro h2; exact h2
  | cons e hsrc htrail ih => intro h2; exact .cons e hsrc (ih h2)

theorem IsTrail.single {es : List (Nat × Nat)} {e a : Nat}
    (h : srcD es e = a) : IsTrail es a (dstD es e) [e] :=
  .cons e h (.nil _)

theorem IsTrail.head_src {es : List (Nat × Nat)} {a b : Nat} {l : List Nat}
    (h : IsTrail es a b l) (hne : l ≠ []) : srcD es (l.getD 0 0) = a := by
  cases h with
  | nil _ => exact absurd rfl hne
  | cons e hsrc htrail => exact hsrc

theorem IsTrail.chain {es : List (Nat × Nat)} :
    ∀ {a b : Nat} {l : List Nat}, IsTrail es a b l →
      ∀ i, i + 1 < l.length →
        dstD es (l.getD i 0) = srcD es (l.getD (i + 1) 0) := by
  intro a b l h
  induction h with
  | nil _ => intro i hi; simp at hi
  | cons e hsrc htrail ih =>
    intro i hi
    match i with
    | 0 =>
      cases htrail with
      | nil _ => simp at hi
      | cons e2 hsrc2 htrail2 => exact hsrc2.symm
    | i + 1 =>
      exact ih i (by simpa using hi)

theorem stateOut_set_ne {adj : List (List (Nat × Nat))} {u w : Nat}
    (hne : u ≠ w) (l : List (Nat × Nat)) :
    stateOut (adj.set u l) w = stateOut adj w := by
  show ((adj.set u l).getD w []).length = (adj.getD w []).length
  rw [getD_set_ne adj hne]

theorem stateOut_set_self {adj : List (List (Nat × Nat))} {u : Nat}
    (hu : u < adj.length) (l : List (Nat × Nat)) :
    stateOut (adj.set u l) u = l.length := by
  show ((adj.set u l).getD u []).length = l.length
  rw [getD_set_self adj hu]

theorem stateIn_pop {adj : List (List (Nat × Nat))} {u : Nat}
    (hu : u < adj.length) {e v : Nat} {rest : List (Nat × Nat)}
    (h : adj.getD u [] = (e, v) :: rest) (w : Nat) :
    stateIn adj w = stateIn (adj.set u rest) w + (if v = w then 1 else 0) := by
  show adj.flatten.countP (fun p => p.2 == w) = _
  rw [(flatten_pop_perm hu h).countP_eq, List.countP_cons]
  show (adj.set u rest).flatten.countP _ + (if (v == w) = true then 1 else 0) = _
  rw [if_congr beq_iff_eq rfl rfl]
  rfl

/-- The main Hierholzer invariant.  If the remaining multigraph is
balanced, except that the current vertex `u` owes one extra out-edge to a
sink `t`, the recursion succeeds and returns a block whose reversal is a
trail from `u` to `t`; the call empties `u`'s iterator and the iterator of
every vertex it enters, consumes exactly the pushed edges, and leaves a
fully balanced state. -/
theorem eulerRecurse_spec {n : Nat} {es : List (Nat × Nat)} :
    ∀ fuel (adj : List (List (Nat × Nat))) (u t : Nat),
      stateSize adj < fuel → EulerState n es adj → u < n →
      (∀ w, stateOut adj w + (if w = t then 1 else 0) =
        stateIn adj w + (if w = u then 1 else 0)) →
      ∃ adj' b, eulerRecurse fuel adj u = some (adj', b) ∧
        EulerState n es adj' ∧
        (∀ w, (adj'.getD w []).IsSuffix (adj.getD w [])) ∧
        (stateEdges adj).Perm (b ++ stateEdges adj') ∧
        IsTrail es u t b.reverse ∧
        adj'.getD u [] = [] ∧
        (∀ e ∈ b, adj'.getD (dstD es e) [] = []) ∧
        (∀ w, stateOut adj' w = stateIn adj' w) := by
  intro fuel
  induction fuel with
  | zero => intro adj u t h1 _ _ _; omega
  | succ f ih =>
    intro adj u t hfuel hstate hun hbalance
    have hu : u < adj.length := by rw [hstate.len]; exact hun
    have hget := Graph.get?_some_getD adj [] hu
    match hcase : adj.getD u [] with
    | [] =>
      rw [hcase] at hget
      have hout : stateOut adj u = 0 := by
        show (adj.getD u []).length = 0
        rw [hcase]
        rfl
      have hut : u = t := by
        have hb := hbalance u
        rw [hout, if_pos rfl] at hb
        by_cases h : u = t
        · exact h
        · rw [if_neg h] at hb
          omega
      refine ⟨adj, [], eulerRecurse_succ_nil hget, hstate,
        fun w => List.suffix_refl _, List.Perm.refl _, ?_, hcase, ?_, ?_⟩
      · show IsTrail es u t []
        rw [← hut]
        exact .nil u
      · intro e he
        exact absurd he (List.not_mem_nil e)
      · intro w
        have hb := hbalance w
        rw [← hut] at hb
        by_cases h : w = u
        · rw [if_pos h] at hb
          omega
        · rw [if_neg h] at hb
          omega
    | (e, v') :: rest =>
      rw [hcase] at hget
      obtain ⟨helt, hsrce, hdste, hv'n⟩ :=
        hstate.entries u (e, v') (by rw [hcase]; exact List.mem_cons_self _ _)
      have hpop := stateEdges_pop_perm hu hcase
      have hstate1 : EulerState n es (adj.set u rest) := by
        constructor
        · rw [List.length_set]; exact hstate.len
        · intro w p hp
          rcases eq_or_ne u w with rfl | hne
          · rw [getD_set_self adj hu] at hp
            exact hstate.entries u p (by rw [hcase]; exact List.mem_cons_of_mem _ hp)
          · rw [getD_set_ne adj hne] at hp
            exact hstate.entries w p hp
        · exact (List.nodup_cons.1 (hpop.nodup_iff.1 hstate.nodup)).2
      have hbal1 : ∀ w, stateOut (adj.set u rest) w + (if w = t then 1 else 0) =
          stateIn (adj.set u rest) w + (if w = v' then 1 else 0) := by
        intro w
        have hb := hbalance w
        have hin := stateIn_pop hu hcase w
        rcases eq_or_ne w u with rfl | hwu
        · have hout : stateOut adj w = rest.length + 1 := by
            show (adj.getD w []).length = _
            rw [hcase]
            rfl
          have hout1 : stateOut (adj.set w rest) w = rest.length :=
            stateOut_set_self hu rest
          rw [hout] at hb
          rw [hout1]
          split_ifs at hb hin ⊢ <;> omega
        · have hout1 : stateOut (adj.set u rest) w = stateOut adj w :=
            stateOut_set_ne (fun h => hwu h.symm) rest
          rw [hout1]
          split_ifs at hb hin ⊢ <;> omega
      have hsize1 : stateSize adj = stateSize (adj.set u rest) + 1 :=
        stateSize_set_cons hu hcase
      obtain ⟨adj2, b1, hrec1, hstate2, hsuf2, hperm2, htrail1, hempty2,
        hdst2, hbal2⟩ := ih (adj.set u rest) v' t (by omega) hstate1 hv'n hbal1
      have hsize2 : stateSize adj2 ≤ stateSize (adj.set u rest) := by
        rw [stateSize_eq_length_stateEdges, stateSize_eq_length_stateEdges,
          hperm2.length_eq, List.length_append]
        omega
      obtain ⟨adj3, b2, hrec2, hstate3, hsuf3, hperm3, htrail2, hempty3,
        hdst3, hbal3⟩ := ih adj2 u u (by omega) hstate2 hun
        (fun w => by rw [hbal2 w])
      refine ⟨adj3, b1 ++ e :: b2,
        eulerRecurse_succ_cons_some hget hrec1 hrec2, hstate3, ?_, ?_, ?_,
        hempty3, ?_, hbal3⟩
      · intro w
        refine (hsuf3 w).trans ((hsuf2 w).trans ?_)
        rcases eq_or_ne u w with rfl | hne
        · rw [getD_set_self adj hu, hcase]
          exact List.suffix_cons (e, v') rest
        · rw [getD_set_ne adj hne]
      · have hshape : (b1 ++ e :: b2) ++ stateEdges adj3 =
            b1 ++ e :: (b2 ++ stateEdges adj3) := by
          rw [List.append_assoc]
          rfl
        have hlast : (e :: (b1 ++ (b2 ++ stateEdges adj3))).Perm
            ((b1 ++ e :: b2) ++ stateEdges adj3) := by
          rw [hshape]
          exact List.perm_middle.symm
        exact hpop.trans ((hperm2.cons e).trans
          (((hperm3.append_left b1).cons e).trans hlast))
      · show IsTrail es u t (b1 ++ e :: b2).reverse
        rw [List.reverse_append, List.reverse_cons]
        have hT1 : IsTrail es u (dstD es e) (b2.reverse ++ [e]) :=
          htrail2.append (IsTrail.single hsrce)
        have hT2 : IsTrail es (dstD es e) t b1.reverse := by
          rw [hdste]
          exact htrail1
        exact hT1.append hT2
      · intro e' he'
        rcases List.mem_append.1 he' with he1 | he2
        · have h2 := hdst2 e' he1
          have h3 := hsuf3 (dstD es e')
          rw [h2] at h3
          exact List.eq_nil_of_suffix_nil h3
        · rcases List.mem_cons.1 he2 with rfl | he3
          · have h3 := hsuf3 (dstD es e')
            rw [hdste, hempty2] at h3
            rw [hdste]
            exact List.eq_nil_of_suffix_nil h3
          · exact hdst3 e' he3

theorem mem_getD {α : Type} {l : List α} {a : α} (h : a ∈ l) (d : α) :
    ∃ i, i < l.length ∧ l.getD i d = a := by
  obtain ⟨i, hi, hEq⟩ := List.mem_iff_getElem.1 h
  exact ⟨i, hi, by rw [List.getD_eq_getElem _ _ hi, hEq]⟩

theorem outdeg_append_single (es : List (Nat × Nat)) (p : Nat × Nat) (w : Nat) :
    outdeg (es ++ [p]) w = outdeg es w + (if p.1 = w then 1 else 0) := by
  show (es ++ [p]).countP _ = es.countP _ + _
  rw [List.countP_append, List.countP_cons, List.countP_nil]
  congr 1
  rw [Nat.zero_add, if_congr beq_iff_eq rfl rfl]

theorem indeg_append_single (es : List (Nat × Nat)) (p : Nat × Nat) (w : Nat) :
    indeg (es ++ [p]) w = indeg es w + (if p.2 = w then 1 else 0) := by
  show (es ++ [p]).countP _ = es.countP _ + _
  rw [List.countP_append, List.countP_cons, List.countP_nil]
  congr 1
  rw [Nat.zero_add, if_congr beq_iff_eq rfl rfl]

theorem sum_map_add (l : List Nat) (f g : Nat → Nat) :
    (l.map fun w => f w + g w).sum = (l.map f).sum + (l.map g).sum := by
  induction l with
  | nil => rfl
  | cons x l ih =>
    rw [List.map_cons, List.map_cons, List.map_cons, List.sum_cons,
      List.sum_cons, List.sum_cons, ih]
    omega

theorem sum_indicator (n a : Nat) :
    ((List.range n).map fun w => if a = w then 1 else 0).sum =
      if a < n then 1 else 0 := by
  induction n with
  | zero =>
    rw [if_neg (Nat.not_lt_zero a)]
    rfl
  | succ n ih =>
    rw [List.range_succ, List.map_append, List.sum_append, ih]
    simp only [List.map_cons, List.map_nil, List.sum_cons, List.sum_nil]
    split_ifs <;> omega

theorem sum_outdeg {n : Nat} :
    ∀ {es : List (Nat × Nat)}, (∀ i, i < es.length → srcD es i < n) →
      ((List.range n).map (outdeg es)).sum = es.length := by
  intro es
  induction es using List.reverseRecOn with
  | nil =>
    intro _
    rw [List.length_nil]
    apply List.sum_eq_zero
    intro x hx
    obtain ⟨w, _, rfl⟩ := List.mem_map.1 hx
    rfl
  | append_singleton es p ih =>
    intro hsrc
    have hsrc' : ∀ i, i < es.length → srcD es i < n := by
      intro i hi
      have h2 := hsrc i (by rw [List.length_append]; omega)
      rwa [srcD_append_lt es [p] hi] at h2
    have hp : p.1 < n := by
      have h2 := hsrc es.length
        (by rw [List.length_append, List.length_singleton]; omega)
      rwa [srcD_concat es p] at h2
    have hcong : (List.range n).map (outdeg (es ++ [p])) =
        (List.range n).map fun w => outdeg es w + (if p.1 = w then 1 else 0) :=
      List.map_congr_left fun w _ => outdeg_append_single es p w
    rw [hcong, sum_map_add, ih hsrc', sum_indicator, if_pos hp,
      List.length_append, List.length_singleton]

theorem sum_indeg {n : Nat} :
    ∀ {es : List (Nat × Nat)}, (∀ i, i < es.length → dstD es i < n) →
      ((List.range n).map (indeg es)).sum = es.length := by
  intro es
  induction es using List.reverseRecOn with
  | nil =>
    intro _
    rw [List.length_nil]
    apply List.sum_eq_zero
    intro x hx
    obtain ⟨w, _, rfl⟩ := List.mem_map.1 hx
    rfl
  | append_singleton es p ih =>
    intro hdst
    have hdst' : ∀ i, i < es.length → dstD es i < n := by
      intro i hi
      have h2 := hdst i (by rw [List.length_append]; omega)
      rwa [dstD_append_lt es [p] hi] at h2
    have hp : p.2 < n := by
      have h2 := hdst es.length
        (by rw [List.length_append, List.length_singleton]; omega)
      rwa [dstD_concat es p] at h2
    have hcong : (List.range n).map (indeg (es ++ [p])) =
        (List.range n).map fun w => indeg es w + (if p.2 = w then 1 else 0) :=
      List.map_congr_left fun w _ => indeg_append_single es p w
    rw [hcong, sum_map_add, ih hdst', sum_indicator, if_pos hp,
      List.length_append, List.length_singleton]

theorem cancel_sum : ∀ l : List Nat, l.Nodup → ∀ u ∈ l, ∀ f g : Nat → Nat,
    (∀ w ∈ l, w ≠ u → f w = g w) → (l.map f).sum = (l.map g).sum →
    f u = g u := by
  intro l
  induction l with
  | nil => intro _ u hu; exact absurd hu (List.not_mem_nil u)
  | cons x l ih =>
    intro hnd u hu f g hfg hsum
    rw [List.map_cons, List.map_cons, List.sum_cons, List.sum_cons] at hsum
    rcases List.mem_cons.1 hu with rfl | hul
    · have htail : (l.map f).sum = (l.map g).sum := by
        have hpt : ∀ w ∈ l, f w = g w := by
          intro w hw
          apply hfg w (List.mem_cons_of_mem _ hw)
          intro hwu
          rw [hwu] at hw
          exact (List.nodup_cons.1 hnd).1 hw
        rw [List.map_congr_left hpt]
      omega
    · have hxu : x ≠ u := by
        intro hxu
        exact (List.nodup_cons.1 hnd).1 (by rw [hxu]; exact hul)
      have hx : f x = g x := hfg x (List.mem_cons_self _ _) hxu
      exact ih (List.nodup_cons.1 hnd).2 u hul f g
        (fun w hw hwu => hfg w (List.mem_cons_of_mem _ hw) hwu) (by omega)

theorem indeg_eq_zero_of_ge {es : List (Nat × Nat)} {n w : Nat}
    (hdst : ∀ i, i < es.length → dstD es i < n) (hw : n ≤ w) :
    indeg es w = 0 := by
  show es.countP _ = 0
  rw [List.countP_eq_zero]
  intro p hp
  obtain ⟨i, hi, hieq⟩ := mem_getD hp (0, 0)
  have h2 := hdst i hi
  have h3 : dstD es i = p.2 := by
    show (es.getD i (0, 0)).2 = p.2
    rw [hieq]
  rw [h3] at h2
  intro hbeq
  rw [beq_iff_eq] at hbeq
  omega

theorem stateEdges_mem_attrib {adj : List (List (Nat × Nat))} {i : Nat}
    (h : i ∈ stateEdges adj) :
    ∃ w, w < adj.length ∧ ∃ v, (i, v) ∈ adj.getD w [] := by
  obtain ⟨p, hp, hpi⟩ := List.mem_map.1 h
  obtain ⟨l, hl, hpl⟩ := List.mem_flatten.1 hp
  obtain ⟨w, hw, hlw⟩ := List.mem_iff_getElem.1 hl
  refine ⟨w, hw, p.2, ?_⟩
  rw [List.getD_eq_getElem _ _ hw, hlw, ← hpi]
  exact hpl

theorem euler_path_eq {g : Graph} {u : Nat} {adj0 : List (List (Nat × Nat))}
    (hInit : g.initAdj = some adj0) :
    g.euler_path u =
      match eulerRecurse (stateSize adj0 + 1) adj0 u with
      | none => none
      | some (_, edges) => some edges.reverse := by
  show (match g.initAdj with
    | none => none
    | some adj =>
      match eulerRecurse (stateSize adj + 1) adj u with
      | none => none
      | some (_, edges) => some edges.reverse) = _
  rw [hInit]

/-! ## Claims about `DisjointSets` -/

/-- Claim C5: for every valid `DisjointSets` with elements `0..size` and
`u, v < size`, `merge(u, v)` succeeds; afterwards `find(u) == find(v)`
(running the two finds in sequence on the updated structure yields the
same representative); the call returned `true` iff `u` and `v` had
different representatives beforehand, attaching the root of `u`'s set
under the root of `v`'s set, and `false` iff they were already in the
same set; and a second `merge(u, v)` call on the result returns `false`. -/
theorem merge_contract (d : DisjointSets) (hp : DisjointSets.Inv d.parent)
    (u v : Nat) (hu : u < d.parent.length) (hv : v < d.parent.length) :
    ∃ d' b, d.merge u v = some (d', b) ∧
      (∃ d1 d2 r, d'.find u = some (d1, r) ∧ d1.find v = some (d2, r)) ∧
      (b = true ↔ DisjointSets.root d.parent u ≠ DisjointSets.root d.parent v) ∧
      (b = false ↔ DisjointSets.root d.parent u = DisjointSets.root d.parent v) ∧
      DisjointSets.step d'.parent (DisjointSets.root d.parent u) =
        DisjointSets.root d.parent v ∧
      ∀ d'' b2, d'.merge u v = some (d'', b2) → b2 = false := by
  obtain ⟨p⟩ := d
  obtain ⟨p3, hmerge, hlen3, hinv3, hroots3, hattach⟩ :=
    DisjointSets.merge_spec hp hu hv
  have hu3 : u < p3.length := by rw [hlen3]; exact hu
  have hv3 : v < p3.length := by rw [hlen3]; exact hv
  have hroot3uv : DisjointSets.root p3 u = DisjointSets.root p3 v := by
    rw [hroots3 u, hroots3 v, if_pos rfl]
    by_cases h : DisjointSets.root p v = DisjointSets.root p u
    · rw [if_pos h, h]
    · rw [if_neg h]
  refine ⟨⟨p3⟩, _, hmerge, ?_, ?_, ?_, hattach, ?_⟩
  · obtain ⟨p4, hfind4, hlen4, hinv4, hroots4⟩ := DisjointSets.find_spec hinv3 hu3
    have hv4 : v < p4.length := by rw [hlen4]; exact hv3
    obtain ⟨p5, hfind5, _, _, _⟩ := DisjointSets.find_spec hinv4 hv4
    refine ⟨⟨p4⟩, ⟨p5⟩, DisjointSets.root p3 u, hfind4, ?_⟩
    rw [hfind5, hroots4 v, hroot3uv]
  · simp [bne_iff_ne]
  · simp [bne_eq_false_iff_eq]
  · intro d'' b2 hmerge2
    obtain ⟨p6, hmerge6, _, _, _, _⟩ := DisjointSets.merge_spec hinv3 hu3 hv3
    rw [hmerge6] at hmerge2
    have hb2 : b2 = (DisjointSets.root p3 u != DisjointSets.root p3 v) :=
      ((Prod.ext_iff.1 (Option.some.inj hmerge2)).2).symm
    rw [hb2, hroot3uv]
    simp

/-- Witness for C5 on a concrete structure: two singleton sets `{0}`, `{1}`
of `new 2` get merged. -/
theorem merge_contract_witness :
    ∃ d' b, (DisjointSets.new 2).merge 0 1 = some (d', b) ∧
      (∃ d1 d2 r, d'.find 0 = some (d1, r) ∧ d1.find 1 = some (d2, r)) ∧
      (b = true ↔ DisjointSets.root (DisjointSets.new 2).parent 0 ≠
        DisjointSets.root (DisjointSets.new 2).parent 1) ∧
      (b = false ↔ DisjointSets.root (DisjointSets.new 2).parent 0 =
        DisjointSets.root (DisjointSets.new 2).parent 1) ∧
      DisjointSets.step d'.parent (DisjointSets.root (DisjointSets.new 2).parent 0) =
        DisjointSets.root (DisjointSets.new 2).parent 1 ∧
      ∀ d'' b2, d'.merge 0 1 = some (d'', b2) → b2 = false :=
  merge_contract (DisjointSets.new 2) (DisjointSets.new_inv 2) 0 1
    (by decide) (by decide)

/-- Claim C6: on every valid `DisjointSets`, the representative returned by
`find` is a fixed point of `find`: running `find u` and then `find` on the
returned representative (in the compressed structure) returns the same
representative again. -/
theorem find_idempotent (d : DisjointSets) (hp : DisjointSets.Inv d.parent)
    (u : Nat) (hu : u < d.parent.length) :
    ∃ d1 r, d.find u = some (d1, r) ∧
      ∃ d2, d1.find r = some (d2, r) := by
  obtain ⟨p⟩ := d
  obtain ⟨p1, hfind1, hlen1, hinv1, hroots1⟩ := DisjointSets.find_spec hp hu
  refine ⟨⟨p1⟩, DisjointSets.root p u, hfind1, ?_⟩
  have hr1 : DisjointSets.root p u < p1.length := by
    rw [hlen1]; exact DisjointSets.root_lt_length hp hu
  obtain ⟨p2, hfind2, _, _, _⟩ := DisjointSets.find_spec hinv1 hr1
  refine ⟨⟨p2⟩, ?_⟩
  rw [hfind2, hroots1, DisjointSets.root_idem hp]

/-- Witness for C6 on a concrete structure: a three-element chain
`0 → 1 → 2` (a valid parent array), queried at `0`. -/
theorem find_idempotent_witness :
    ∃ d1 r, DisjointSets.find ⟨[1, 2, 2]⟩ 0 = some (d1, r) ∧
      ∃ d2, d1.find r = some (d2, r) := by
  refine find_idempotent ⟨[1, 2, 2]⟩ ?_ 0 (by decide)
  constructor
  · intro u hu
    have hu3 : u < 3 := by simpa using hu
    interval_cases u <;> decide
  · intro u hu
    have hu3 : u < 3 := by simpa using hu
    interval_cases u
    · exact ⟨2, by decide⟩
    · exact ⟨1, by decide⟩
    · exact ⟨0, by decide⟩

/-! ## Claims about the `Graph` operations -/

/-- Claim C8: in a graph whose edges were all added via
`add_undirected_edge` (build pairs `ps`), for every edge index `e`,
`e ^^^ 1` is a valid distinct edge index and `endp[e ^^^ 1]` equals the
source vertex of edge `e` (edges `2k` and `2k+1` are mutual reverses);
and the invariant survives every further `add_undirected_edge` call. -/
theorem undirected_reverse_invariant (n : Nat) (ps : List (Nat × Nat))
    (g : Graph) (h : buildUndirected n ps = some g) :
    (∀ e, e < g.num_e → e ^^^ 1 ≠ e ∧ e ^^^ 1 < g.num_e ∧
      g.endp.getD (e ^^^ 1) 0 = srcD (undirPairs ps) e) ∧
    ∀ u v g', g.add_undirected_edge u v = some g' →
      ∀ e, e < g'.num_e → e ^^^ 1 ≠ e ∧ e ^^^ 1 < g'.num_e ∧
        g'.endp.getD (e ^^^ 1) 0 = srcD (undirPairs (ps ++ [(u, v)])) e := by
  refine ⟨undirected_reverse_core h, ?_⟩
  intro u v g' h'
  have hb : buildUndirected n (ps ++ [(u, v)]) = some g' := by
    rw [buildUndirected_append, h, Option.some_bind]
    exact h'
  exact undirected_reverse_core hb

/-- Claim C4: on every graph reachable through the API, `euler_path(u)`
with `u < num_v()` terminates whether or not the Eulerian precondition
holds, because each edge is consumed from the shared iterators at most
once: the fuel `stateSize adj0 + 1` the embedding runs the recursion with
is exact, in that any larger fuel computes the same result (so the
un-fuelled Rust recursion bottoms out; a `none` result is the Rust panic
on an out-of-range stored destination, also a form of termination).
Consequently each edge index appears at most once in a returned sequence,
and every returned index is a real edge index. -/
theorem euler_terminates (n : Nat) (es : List (Nat × Nat)) (g : Graph)
    (h : buildGraph n es = some g) (u : Nat) (hu : u < g.num_v) :
    ∃ adj0, g.initAdj = some adj0 ∧
      (∀ fuel, stateSize adj0 < fuel →
        eulerRecurse fuel adj0 u = eulerRecurse (stateSize adj0 + 1) adj0 u) ∧
      ∀ l, g.euler_path u = some l → l.Nodup ∧ ∀ e ∈ l, e < g.num_e := by
  obtain ⟨hfl, _, hnlen, _, hsrc, _⟩ := Graph.buildGraph_spec h
  have hInit : g.initAdj = some (initState es n) := initAdj_built h
  refine ⟨initState es n, hInit, ?_, ?_⟩
  · intro fuel hf
    exact (eulerRecurse_fuel fuel (initState es n) u (stateSize (initState es n) + 1)
      hf (Nat.lt_succ_self _)).1
  · intro l hl
    rw [euler_path_eq hInit] at hl
    match hrec : eulerRecurse (stateSize (initState es n) + 1) (initState es n) u with
    | none =>
      rw [hrec] at hl
      exact Option.noConfusion hl
    | some (adj', b) =>
      rw [hrec] at hl
      have hlb : l = b.reverse := (Option.some.inj hl).symm
      obtain ⟨_, hperm⟩ := (eulerRecurse_fuel (stateSize (initState es n) + 1)
        (initState es n) u (stateSize (initState es n) + 1)
        (Nat.lt_succ_self _) (Nat.lt_succ_self _)).2 adj' b hrec
      have hinitperm := stateEdges_init_perm hsrc
      have hall : (stateEdges (initState es n)).Perm
          (b ++ stateEdges adj') := hperm
      have hbperm : (List.range es.length).Perm (b ++ stateEdges adj') :=
        hinitperm.symm.trans hall
      have hnodup : (b ++ stateEdges adj').Nodup :=
        hbperm.nodup_iff.1 (List.nodup_range _)
      constructor
      · rw [hlb, List.nodup_reverse]
        exact (List.Nodup.of_append_left hnodup)
      · intro e he
        rw [hlb, List.mem_reverse] at he
        have : e ∈ List.range es.length :=
          hbperm.mem_iff.2 (List.mem_append_left _ he)
        rw [List.mem_range] at this
        show e < g.next.length
        omega

/-- Witness for C4 on the Euler test graph, at start vertex 0. -/
theorem euler_terminates_witness :
    buildGraph 3 [(0, 1), (1, 0), (1, 2), (2, 1)] =
      some ⟨[some 0, some 2, some 3], [none, none, some 1, none],
        [1, 0, 2, 1]⟩ ∧
    (0 < (⟨[some 0, some 2, some 3], [none, none, some 1, none],
        [1, 0, 2, 1]⟩ : Graph).num_v) ∧
    ∃ adj0, (⟨[some 0, some 2, some 3], [none, none, some 1, none],
        [1, 0, 2, 1]⟩ : Graph).initAdj = some adj0 ∧
      (∀ fuel, stateSize adj0 < fuel →
        eulerRecurse fuel adj0 0 = eulerRecurse (stateSize adj0 + 1) adj0 0) ∧
      ∀ l, (⟨[some 0, some 2, some 3], [none, none, some 1, none],
        [1, 0, 2, 1]⟩ : Graph).euler_path 0 = some l →
        l.Nodup ∧ ∀ e ∈ l, e < (⟨[some 0, some 2, some 3],
          [none, none, some 1, none], [1, 0, 2, 1]⟩ : Graph).num_e :=
  ⟨by decide, by decide,
    euler_terminates 3 [(0, 1), (1, 0), (1, 2), (2, 1)] _ (by decide) 0
      (by decide)⟩

/-- Claim C1: on every graph reachable through the API that satisfies the
Eulerian precondition — all stored destinations valid, every vertex other
than the start `u` has equal in- and out-degree, `u` itself balanced or
with one extra out-edge, and every edge's source reachable from `u` —
`euler_path(u)` returns a sequence that is a permutation of all edge
indices (length `num_e()`, each edge exactly once), forms a trail whose
consecutive edges are chain-connected, and whose first edge leaves `u`.
(The strict `out = in + 1` case of the precondition is vacuous: summing
degrees over all vertices forces `u` to be balanced too, so the trail is
in fact a circuit back to `u`.)  In particular, on the concrete test graph
with edges `0:(0→1), 1:(1→0), 2:(1→2), 3:(2→1)`, `euler_path(0)` is
`[0, 2, 3, 1]`. -/
theorem euler_path_correct (n : Nat) (es : List (Nat × Nat)) (g : Graph)
    (h : buildGraph n es = some g) (u : Nat) (hu : u < n)
    (hdst : ∀ i, i < es.length → dstD es i < n)
    (hdeg1 : ∀ x, x < n → x ≠ u → outdeg es x = indeg es x)
    (hdeg2 : outdeg es u = indeg es u ∨ outdeg es u = indeg es u + 1)
    (hreach : ∀ i, i < es.length → Reach es u (srcD es i)) :
    (∃ l, g.euler_path u = some l ∧ l.length = g.num_e ∧
      l.Perm (List.range g.num_e) ∧ IsTrail es u u l ∧
      (∀ i, i + 1 < l.length →
        dstD es (l.getD i 0) = srcD es (l.getD (i + 1) 0)) ∧
      (l ≠ [] → srcD es (l.getD 0 0) = u)) ∧
    (⟨[some 0, some 2, some 3], [none, none, some 1, none],
      [1, 0, 2, 1]⟩ : Graph).euler_path 0 = some [0, 2, 3, 1] := by
  refine ⟨?_, by decide⟩
  obtain ⟨hfl, hendp, hnlen, hwf, hsrc, _⟩ := Graph.buildGraph_spec h
  have hInit : g.initAdj = some (initState es n) := initAdj_built h
  -- the initial state is well formed
  have hstate0 : EulerState n es (initState es n) := by
    constructor
    · exact initState_length es n
    · intro w p hp
      rcases Nat.lt_or_ge w n with hwn | hwn
      · rw [initState_getD hwn, List.mem_reverse] at hp
        obtain ⟨hlt, hsrcp, hdstp⟩ :=
          mem_outEdges.1 (show (p.1, p.2) ∈ outEdges es w from hp)
        exact ⟨hlt, hsrcp, hdstp, by rw [← hdstp]; exact hdst p.1 hlt⟩
      · rw [List.getD_eq_default _ _
          (by rw [initState_length]; exact hwn)] at hp
        exact absurd hp (List.not_mem_nil p)
    · exact (stateEdges_init_perm hsrc).nodup_iff.2 (List.nodup_range _)
  -- the start vertex is balanced (the `+1` case is impossible)
  have hbalu : outdeg es u = indeg es u := by
    rcases hdeg2 with h1 | h1
    · exact h1
    · exfalso
      have hc := cancel_sum (List.range n) (List.nodup_range _) u
        (List.mem_range.2 hu) (outdeg es) (indeg es)
        (fun w hw hwu => hdeg1 w (List.mem_range.1 hw) hwu)
        (by rw [sum_outdeg hsrc, sum_indeg hdst])
      omega
  have hbal : ∀ w, stateOut (initState es n) w + (if w = u then 1 else 0) =
      stateIn (initState es n) w + (if w = u then 1 else 0) := by
    have hb0 : ∀ w, stateOut (initState es n) w = stateIn (initState es n) w := by
      intro w
      rcases Nat.lt_or_ge w n with hwn | hwn
      · rw [stateOut_init hwn, stateIn_init hsrc w]
        rcases eq_or_ne w u with rfl | hwu
        · exact hbalu
        · exact hdeg1 w hwn hwu
      · rw [stateOut_ge (by rw [initState_length]; exact hwn),
          stateIn_init hsrc w, indeg_eq_zero_of_ge hdst hwn]
    intro w
    rw [hb0 w]
  obtain ⟨adj', b, hrec, hstate', hsuf, hperm, htrail, hemptyu, hdstb, _⟩ :=
    eulerRecurse_spec (stateSize (initState es n) + 1) (initState es n) u u
      (Nat.lt_succ_self _) hstate0 hu hbal
  -- every vertex reachable from `u` ends with an exhausted iterator
  have hfinal : ∀ x, Reach es u x → adj'.getD x [] = [] := by
    intro x hx
    induction hx with
    | refl => exact hemptyu
    | @tail y z hab hbc ih =>
      obtain ⟨i, hi, hieq⟩ := mem_getD hbc (0, 0)
      have hsrci : srcD es i = y := by
        show (es.getD i (0, 0)).1 = y
        rw [hieq]
      have hdsti : dstD es i = z := by
        show (es.getD i (0, 0)).2 = z
        rw [hieq]
      have hib : i ∈ b := by
        by_contra hib
        have hi0 : i ∈ stateEdges (initState es n) :=
          (stateEdges_init_perm hsrc).mem_iff.2 (List.mem_range.2 hi)
        rcases List.mem_append.1 (hperm.mem_iff.1 hi0) with h1 | h2
        · exact hib h1
        · obtain ⟨w, hw, v, hv⟩ := stateEdges_mem_attrib h2
          have hw' := hstate'.entries w (i, v) hv
          have hwy : w = y := by rw [← hw'.2.1, hsrci]
          rw [hwy, ih] at hv
          exact absurd hv (List.not_mem_nil _)
      have h2 := hdstb i hib
      rwa [hdsti] at h2
  -- hence no edge survives
  have hedges' : stateEdges adj' = [] := by
    rw [List.eq_nil_iff_forall_not_mem]
    intro i hi'
    obtain ⟨w, hw, v, hv⟩ := stateEdges_mem_attrib hi'
    obtain ⟨hilt, hsrci, _, _⟩ := hstate'.entries w (i, v) hv
    have hreachw : Reach es u w := by rw [← hsrci]; exact hreach i hilt
    rw [hfinal w hreachw] at hv
    exact absurd hv (List.not_mem_nil _)
  have hbrange : b.Perm (List.range es.length) := by
    have h1 := (stateEdges_init_perm hsrc).symm.trans hperm
    rw [hedges', List.append_nil] at h1
    exact h1.symm
  have hnum : g.num_e = es.length := hnlen
  refine ⟨b.reverse, by rw [euler_path_eq hInit, hrec], ?_, ?_, htrail,
    htrail.chain, htrail.head_src⟩
  · rw [List.length_reverse, hbrange.length_eq, List.length_range, hnum]
  · rw [hnum]
    exact (List.reverse_perm b).trans hbrange

/-- Witness for C1 on the Euler test graph (both degree conditions and the
reachability of every edge source are discharged concretely; reachability
of vertices 1 and 2 from 0 is exhibited by explicit walks). -/
theorem euler_path_correct_witness :
    buildGraph 3 [(0, 1), (1, 0), (1, 2), (2, 1)] =
      some ⟨[some 0, some 2, some 3], [none, none, some 1, none],
        [1, 0, 2, 1]⟩ ∧
    (0 < 3) ∧
    (∀ i, i < ([(0, 1), (1, 0), (1, 2), (2, 1)] : List (Nat × Nat)).length →
      dstD [(0, 1), (1, 0), (1, 2), (2, 1)] i < 3) ∧
    (∀ x, x < 3 → x ≠ 0 → outdeg [(0, 1), (1, 0), (1, 2), (2, 1)] x =
      indeg [(0, 1), (1, 0), (1, 2), (2, 1)] x) ∧
    (∀ i, i < ([(0, 1), (1, 0), (1, 2), (2, 1)] : List (Nat × Nat)).length →
      Reach [(0, 1), (1, 0), (1, 2), (2, 1)] 0
        (srcD [(0, 1), (1, 0), (1, 2), (2, 1)] i)) ∧
    ((∃ l, (⟨[some 0, some 2, some 3], [none, none, some 1, none],
        [1, 0, 2, 1]⟩ : Graph).euler_path 0 = some l ∧
      l.length = (⟨[some 0, some 2, some 3], [none, none, some 1, none],
        [1, 0, 2, 1]⟩ : Graph).num_e ∧
      l.Perm (List.range (⟨[some 0, some 2, some 3],
        [none, none, some 1, none], [1, 0, 2, 1]⟩ : Graph).num_e) ∧
      IsTrail [(0, 1), (1, 0), (1, 2), (2, 1)] 0 0 l ∧
      (∀ i, i + 1 < l.length →
        dstD [(0, 1), (1, 0), (1, 2), (2, 1)] (l.getD i 0) =
          srcD [(0, 1), (1, 0), (1, 2), (2, 1)] (l.getD (i + 1) 0)) ∧
      (l ≠ [] → srcD [(0, 1), (1, 0), (1, 2), (2, 1)] (l.getD 0 0) = 0)) ∧
    (⟨[some 0, some 2, some 3], [none, none, some 1, none],
      [1, 0, 2, 1]⟩ : Graph).euler_path 0 = some [0, 2, 3, 1]) := by
  have r01 : Reach [(0, 1), (1, 0), (1, 2), (2, 1)] 0 1 :=
    Relation.ReflTransGen.single (show ((0 : Nat), (1 : Nat)) ∈
      [(0, 1), (1, 0), (1, 2), (2, 1)] by decide)
  have r02 : Reach [(0, 1), (1, 0), (1, 2), (2, 1)] 0 2 :=
    r01.tail (show ((1 : Nat), (2 : Nat)) ∈
      [(0, 1), (1, 0), (1, 2), (2, 1)] by decide)
  have hreach : ∀ i, i < ([(0, 1), (1, 0), (1, 2), (2, 1)] :
      List (Nat × Nat)).length →
      Reach [(0, 1), (1, 0), (1, 2), (2, 1)] 0
        (srcD [(0, 1), (1, 0), (1, 2), (2, 1)] i) := by
    intro i hi
    have hi4 : i < 4 := by simpa using hi
    interval_cases i
    · exact Relation.ReflTransGen.refl
    · exact r01
    · exact r01
    · exact r02
  exact ⟨by decide, by decide, by decide, by decide, hreach,
    euler_path_correct 3 [(0, 1), (1, 0), (1, 2), (2, 1)] _ (by decide) 0
      (by decide) (by decide) (by decide) (Or.inl (by decide)) hreach⟩

/-- Witness for C8 on a concrete undirected path graph `0 - 1 - 2`. -/
theorem undirected_reverse_invariant_witness :
    buildUndirected 3 [(0, 1), (1, 2)] =
      some ⟨[some 0, some 2, some 3], [none, none, some 1, none],
        [1, 0, 2, 1]⟩ ∧
    ((∀ e, e < (⟨[some 0, some 2, some 3], [none, none, some 1, none],
        [1, 0, 2, 1]⟩ : Graph).num_e → e ^^^ 1 ≠ e ∧
        e ^^^ 1 < (⟨[some 0, some 2, some 3], [none, none, some 1, none],
          [1, 0, 2, 1]⟩ : Graph).num_e ∧
        (⟨[some 0, some 2, some 3], [none, none, some 1, none],
          [1, 0, 2, 1]⟩ : Graph).endp.getD (e ^^^ 1) 0 =
          srcD (undirPairs [(0, 1), (1, 2)]) e) ∧
      ∀ u v g', (⟨[some 0, some 2, some 3], [none, none, some 1, none],
          [1, 0, 2, 1]⟩ : Graph).add_undirected_edge u v = some g' →
        ∀ e, e < g'.num_e → e ^^^ 1 ≠ e ∧ e ^^^ 1 < g'.num_e ∧
          g'.endp.getD (e ^^^ 1) 0 =
            srcD (undirPairs ([(0, 1), (1, 2)] ++ [(u, v)])) e) :=
  ⟨by decide, undirected_reverse_invariant 3 [(0, 1), (1, 2)] _ (by decide)⟩

/-- Claim C10: `add_edge(u, v)` bounds-checks only the source.  It fails
(panics, modelled by `none`) exactly when `u ≥ num_v()`; for any
destination `v`, in range or not, the call succeeds when `u < num_v()`,
stores `v` as the new edge's endpoint, leaves `num_v()` unchanged and
increments `num_e()` by one. -/
theorem add_edge_checks_only_source (g : Graph) (u v : Nat) :
    (g.num_v ≤ u → g.add_edge u v = none) ∧
    (u < g.num_v → ∃ g', g.add_edge u v = some g' ∧
      g'.num_v = g.num_v ∧ g'.num_e = g.num_e + 1 ∧
      g'.endp = g.endp ++ [v]) := by
  constructor
  · intro h
    exact Graph.add_edge_none h v
  · intro h
    refine ⟨_, Graph.add_edge_eq h v, ?_, ?_, rfl⟩
    · show (g.first.set u (some g.endp.length)).length = g.first.length
      rw [List.length_set]
    · show (g.next ++ [g.first.getD u none]).length = g.next.length + 1
      rw [List.length_append, List.length_singleton]

/-- Witness for C10: on a one-vertex graph, `add_edge 0 5` succeeds and
stores the out-of-range destination `5`, while `add_edge 1 5` fails. -/
theorem add_edge_checks_only_source_witness :
    (0 < (Graph.new 1 0).num_v ∧
      ∃ g', (Graph.new 1 0).add_edge 0 5 = some g' ∧
        g'.num_v = (Graph.new 1 0).num_v ∧
        g'.num_e = (Graph.new 1 0).num_e + 1 ∧
        g'.endp = (Graph.new 1 0).endp ++ [5]) ∧
    ((Graph.new 1 0).num_v ≤ 1 ∧ (Graph.new 1 0).add_edge 1 5 = none) :=
  ⟨⟨by decide, (add_edge_checks_only_source (Graph.new 1 0) 0 5).2 (by decide)⟩,
   ⟨by decide, (add_edge_checks_only_source (Graph.new 1 0) 1 5).1 (by decide)⟩⟩

/-- Claim C9: with `u^1` and `v^1` valid vertices, `add_two_sat_clause(u, v)`
appends exactly two edges and nothing else: first the edge `u^1 → v` at
index `num_e()`, then the edge `v^1 → u` at index `num_e() + 1` (the arrays
are extended by exactly the two slots `add_edge (u^1) v; add_edge (v^1) u`
would create, and `first` is redirected only at `u^1` and `v^1`). -/
theorem two_sat_clause_encoding (g : Graph) (u v : Nat)
    (hu : u ^^^ 1 < g.num_v) (hv : v ^^^ 1 < g.num_v) :
    ∃ g', g.add_two_sat_clause u v = some g' ∧
      g'.endp = g.endp ++ [v, u] ∧
      g'.next = g.next ++ [g.first.getD (u ^^^ 1) none,
        (g.first.set (u ^^^ 1) (some g.endp.length)).getD (v ^^^ 1) none] ∧
      g'.first = (g.first.set (u ^^^ 1) (some g.endp.length)).set (v ^^^ 1)
        (some (g.endp.length + 1)) ∧
      g'.num_e = g.num_e + 2 ∧ g'.num_v = g.num_v := by
  rw [Graph.add_two_sat_clause, Graph.add_edge_eq hu v]
  have hv1 : v ^^^ 1 <
      (Graph.mk (g.first.set (u ^^^ 1) (some g.endp.length))
        (g.next ++ [g.first.getD (u ^^^ 1) none]) (g.endp ++ [v])).num_v := by
    show v ^^^ 1 < (g.first.set (u ^^^ 1) (some g.endp.length)).length
    rw [List.length_set]
    exact hv
  rw [Option.some_bind, Graph.add_edge_eq hv1 u]
  refine ⟨_, rfl, ?_, ?_, ?_, ?_, ?_⟩
  · show (g.endp ++ [v]) ++ [u] = g.endp ++ [v, u]
    rw [List.append_assoc]
    rfl
  · show (g.next ++ [g.first.getD (u ^^^ 1) none]) ++ [_] = _
    rw [List.append_assoc]
    show _ = g.next ++ [g.first.getD (u ^^^ 1) none,
      (g.first.set (u ^^^ 1) (some g.endp.length)).getD (v ^^^ 1) none]
    rfl
  · show (g.first.set (u ^^^ 1) (some g.endp.length)).set (v ^^^ 1)
      (some (g.endp ++ [v]).length) = _
    rw [List.length_append, List.length_singleton]
  · show ((g.next ++ [g.first.getD (u ^^^ 1) none]) ++ [_]).length = g.next.length + 2
    rw [List.length_append, List.length_append, List.length_singleton,
      List.length_singleton]
  · show ((g.first.set (u ^^^ 1) (some g.endp.length)).set (v ^^^ 1)
      (some (g.endp ++ [v]).length)).length = g.first.length
    rw [List.length_set, List.length_set]

/-- Witness for C9 on a concrete graph: a fresh four-vertex graph receives
the clause `(0 ∨ 2)`, i.e. edges `1 → 2` and `3 → 0`. -/
theorem two_sat_clause_encoding_witness :
    (0 ^^^ 1 < (Graph.new 4 0).num_v ∧ 2 ^^^ 1 < (Graph.new 4 0).num_v) ∧
    ∃ g', (Graph.new 4 0).add_two_sat_clause 0 2 = some g' ∧
      g'.endp = (Graph.new 4 0).endp ++ [2, 0] ∧
      g'.next = (Graph.new 4 0).next ++ [(Graph.new 4 0).first.getD (0 ^^^ 1) none,
        ((Graph.new 4 0).first.set (0 ^^^ 1)
          (some (Graph.new 4 0).endp.length)).getD (2 ^^^ 1) none] ∧
      g'.first = ((Graph.new 4 0).first.set (0 ^^^ 1)
          (some (Graph.new 4 0).endp.length)).set (2 ^^^ 1)
        (some ((Graph.new 4 0).endp.length + 1)) ∧
      g'.num_e = (Graph.new 4 0).num_e + 2 ∧ g'.num_v = (Graph.new 4 0).num_v :=
  ⟨⟨by decide, by decide⟩,
    two_sat_clause_encoding (Graph.new 4 0) 0 2 (by decide) (by decide)⟩

/-- Counterexample to claim C3 as stated: an API-reachable graph
(`new(1); add_edge(0,5); add_edge(0,5)`) whose stored destination `5` is
not a valid vertex.  `min_spanning_tree([w])` satisfies the claimed
precondition `num_e() == 2 * weights.len()` yet still fails: the merge
step runs `find(5)` on a one-element `DisjointSets` and panics. -/
theorem mst_panics_despite_length_match :
    buildGraph 1 [(0, 5), (0, 5)] =
      some ⟨[some 1], [none, some 0], [5, 5]⟩ ∧
    (⟨[some 1], [none, some 0], [5, 5]⟩ : Graph).num_e =
      2 * ([0] : List Int).length ∧
    (⟨[some 1], [none, some 0], [5, 5]⟩ : Graph).min_spanning_tree [0] =
      none := by
  decide

/-- Claim C3 (amended): `min_spanning_tree(weights)` always fails when
`num_e() ≠ 2 * weights.len()`; when that precondition holds **and** every
stored edge destination is a valid vertex index, it never fails.  (The
claim's unconditional "never fails" direction is false: see the
counterexample, where an out-of-range stored destination makes the merge
step panic although `num_e() == 2 * weights.len()`.) -/
theorem mst_precondition_check (n : Nat) (es : List (Nat × Nat)) (g : Graph)
    (h : buildGraph n es = some g) (w : List Int) :
    (g.num_e ≠ 2 * w.length → g.min_spanning_tree w = none) ∧
    (g.num_e = 2 * w.length → (∀ i, i < es.length → dstD es i < n) →
      ∃ K, g.min_spanning_tree w = some K) := by
  obtain ⟨hfl, hendp, hnlen, _, _, _⟩ := Graph.buildGraph_spec h
  constructor
  · intro hne
    rw [Graph.min_spanning_tree, if_neg hne]
  · intro heq hd
    rw [Graph.min_spanning_tree, if_pos heq]
    have helen : g.endp.length = es.length := by rw [hendp, List.length_map]
    have hes2 : es.length = 2 * w.length := by
      rw [← hnlen]; exact heq
    have hnumv : g.num_v = n := hfl
    apply kruskalGo_some g _ _ (DisjointSets.new_inv g.num_v)
    · show (List.range g.num_v).length = g.num_v
      rw [List.length_range]
    · intro e he
      have : e ∈ List.range w.length :=
        (List.perm_insertionSort (Graph.weightLE w) (List.range w.length)).mem_iff.1 he
      rw [List.mem_range] at this
      rw [helen]
      omega
    · intro e he
      have hew : e ∈ List.range w.length :=
        (List.perm_insertionSort (Graph.weightLE w) (List.range w.length)).mem_iff.1 he
      rw [List.mem_range] at hew
      have h1 : 2 * e < es.length := by omega
      have h2 : 2 * e + 1 < es.length := by omega
      constructor
      · rw [hendp, getD_map_snd _ h1, hnumv]
        exact hd (2 * e) h1
      · rw [hendp, getD_map_snd _ h2, hnumv]
        exact hd (2 * e + 1) h2

/-- Witness for C3 (amended) on the undirected triangle: with an empty
weight list the length check fails and the call aborts; with the matching
three weights and in-range destinations the call succeeds. -/
theorem mst_precondition_check_witness :
    ((⟨[some 5, some 2, some 4], [none, none, some 1, none, some 3, some 0],
        [1, 0, 2, 1, 0, 2]⟩ : Graph).num_e ≠ 2 * ([] : List Int).length ∧
      (⟨[some 5, some 2, some 4], [none, none, some 1, none, some 3, some 0],
        [1, 0, 2, 1, 0, 2]⟩ : Graph).min_spanning_tree [] = none) ∧
    ((⟨[some 5, some 2, some 4], [none, none, some 1, none, some 3, some 0],
        [1, 0, 2, 1, 0, 2]⟩ : Graph).num_e = 2 * ([7, 3, 5] : List Int).length ∧
      (∀ i, i < ([(0, 1), (1, 0), (1, 2), (2, 1), (2, 0), (0, 2)] :
        List (Nat × Nat)).length →
        dstD [(0, 1), (1, 0), (1, 2), (2, 1), (2, 0), (0, 2)] i < 3) ∧
      ∃ K, (⟨[some 5, some 2, some 4], [none, none, some 1, none, some 3, some 0],
        [1, 0, 2, 1, 0, 2]⟩ : Graph).min_spanning_tree [7, 3, 5] = some K) :=
  ⟨⟨by decide, (mst_precondition_check 3 [(0, 1), (1, 0), (1, 2), (2, 1), (2, 0), (0, 2)]
      _ (by decide) []).1 (by decide)⟩,
   ⟨by decide, by decide,
    (mst_precondition_check 3 [(0, 1), (1, 0), (1, 2), (2, 1), (2, 0), (0, 2)]
      _ (by decide) [7, 3, 5]).2 (by decide) (by decide)⟩⟩

/-- Claim C7: on every graph reachable through the API and every vertex
`u < num_v()`, `adj_list(u)` yields exactly the `(edge index, destination)`
pairs of `u`'s outgoing edges, each exactly once, in reverse insertion
order (`outEdges es u` lists them in insertion order; the iterator yields
its reverse).  Each call is an independent restart from `first[u]`: the
result is a pure function of the graph and `u` alone. -/
theorem adj_list_enumeration (n : Nat) (es : List (Nat × Nat)) (g : Graph)
    (h : buildGraph n es = some g) (u : Nat) (hu : u < n) :
    g.adj_list u = some (outEdges es u).reverse ∧
    (∀ i v, (i, v) ∈ (outEdges es u).reverse ↔
      i < es.length ∧ srcD es i = u ∧ dstD es i = v) ∧
    (outEdges es u).reverse.Nodup := by
  refine ⟨Graph.adj_list_built h hu, ?_, ?_⟩
  · intro i v
    rw [List.mem_reverse]
    exact mem_outEdges
  · rw [List.nodup_reverse]
    exact outEdges_nodup es u

/-- Witness for C7 on the Euler test graph: vertex 1 has outgoing edges
`2 → 2` and `1 → 0`, reported newest first. -/
theorem adj_list_enumeration_witness :
    buildGraph 3 [(0, 1), (1, 0), (1, 2), (2, 1)] =
      some ⟨[some 0, some 2, some 3], [none, none, some 1, none], [1, 0, 2, 1]⟩ ∧
    (1 < 3) ∧
    ((⟨[some 0, some 2, some 3], [none, none, some 1, none],
        [1, 0, 2, 1]⟩ : Graph).adj_list 1 =
      some (outEdges [(0, 1), (1, 0), (1, 2), (2, 1)] 1).reverse ∧
    (∀ i v, (i, v) ∈ (outEdges [(0, 1), (1, 0), (1, 2), (2, 1)] 1).reverse ↔
      i < 4 ∧ srcD [(0, 1), (1, 0), (1, 2), (2, 1)] i = 1 ∧
        dstD [(0, 1), (1, 0), (1, 2), (2, 1)] i = v) ∧
    (outEdges [(0, 1), (1, 0), (1, 2), (2, 1)] 1).reverse.Nodup) :=
  ⟨by decide, by decide,
    adj_list_enumeration 3 [(0, 1), (1, 0), (1, 2), (2, 1)] _ (by decide) 1
      (by decide)⟩

/-! ## Connectivity through a set of undirected pairs -/

theorem connRel_mono {ps : List (Nat × Nat)} {S S' : List Nat}
    (hss : ∀ k, k ∈ S → k ∈ S') {x y : Nat} (h : connRel ps S x y) :
    connRel ps S' x y := by
  refine Relation.EqvGen.mono (fun u v huv => ?_) h
  obtain ⟨k, hk, hp⟩ := huv
  exact ⟨k, hss k hk, hp⟩

theorem connRel_nil {ps : List (Nat × Nat)} {x y : Nat}
    (h : connRel ps [] x y) : x = y := by
  induction h with
  | rel u v huv =>
    obtain ⟨k, hk, _⟩ := huv
    exact absurd hk (List.not_mem_nil k)
  | refl u => rfl
  | symm u v _ ih => exact ih.symm
  | trans u v w _ _ ih1 ih2 => exact ih1.trans ih2

theorem eqvGen_extend {r : Nat → Nat → Prop} {a b : Nat} {x y : Nat} :
    Relation.EqvGen
      (fun u v => r u v ∨ (u = a ∧ v = b) ∨ (u = b ∧ v = a)) x y ↔
    (Relation.EqvGen r x y ∨
      (Relation.EqvGen r x a ∧ Relation.EqvGen r b y) ∨
      (Relation.EqvGen r x b ∧ Relation.EqvGen r a y)) := by
  constructor
  · intro h
    induction h with
    | rel u v huv =>
      rcases huv with h | ⟨rfl, rfl⟩ | ⟨rfl, rfl⟩
      · exact Or.inl (Relation.EqvGen.rel u v h)
      · exact Or.inr (Or.inl ⟨Relation.EqvGen.refl u, Relation.EqvGen.refl v⟩)
      · exact Or.inr (Or.inr ⟨Relation.EqvGen.refl u, Relation.EqvGen.refl v⟩)
    | refl u => exact Or.inl (Relation.EqvGen.refl u)
    | symm u v _ ih =>
      rcases ih with h | ⟨h1, h2⟩ | ⟨h1, h2⟩
      · exact Or.inl (Relation.EqvGen.symm u v h)
      · exact Or.inr (Or.inr
          ⟨Relation.EqvGen.symm _ _ h2, Relation.EqvGen.symm _ _ h1⟩)
      · exact Or.inr (Or.inl
          ⟨Relation.EqvGen.symm _ _ h2, Relation.EqvGen.symm _ _ h1⟩)
    | trans u v w _ _ ih1 ih2 =>
      rcases ih1 with h1 | ⟨h1, h2⟩ | ⟨h1, h2⟩
      · rcases ih2 with h3 | ⟨h3, h4⟩ | ⟨h3, h4⟩
        · exact Or.inl (Relation.EqvGen.trans _ _ _ h1 h3)
        · exact Or.inr (Or.inl ⟨Relation.EqvGen.trans _ _ _ h1 h3, h4⟩)
        · exact Or.inr (Or.inr ⟨Relation.EqvGen.trans _ _ _ h1 h3, h4⟩)
      · rcases ih2 with h3 | ⟨h3, h4⟩ | ⟨h3, h4⟩
        · exact Or.inr (Or.inl ⟨h1, Relation.EqvGen.trans _ _ _ h2 h3⟩)
        · exact Or.inl (Relation.EqvGen.trans _ _ _
            (Relation.EqvGen.trans _ _ _ h1
              (Relation.EqvGen.symm _ _ (Relation.EqvGen.trans _ _ _ h2 h3)))
            h4)
        · exact Or.inl (Relation.EqvGen.trans _ _ _ h1 h4)
      · rcases ih2 with h3 | ⟨h3, h4⟩ | ⟨h3, h4⟩
        · exact Or.inr (Or.inr ⟨h1, Relation.EqvGen.trans _ _ _ h2 h3⟩)
        · exact Or.inl (Relation.EqvGen.trans _ _ _ h1 h4)
        · exact Or.inl (Relation.EqvGen.trans _ _ _
            (Relation.EqvGen.trans _ _ _ h1
              (Relation.EqvGen.symm _ _ (Relation.EqvGen.trans _ _ _ h2 h3)))
            h4)
  · intro h
    have emb : ∀ {u v : Nat}, Relation.EqvGen r u v →
        Relation.EqvGen
          (fun u v => r u v ∨ (u = a ∧ v = b) ∨ (u = b ∧ v = a)) u v :=
      fun huv => Relation.EqvGen.mono (fun _ _ h => Or.inl h) huv
    have hab : Relation.EqvGen
        (fun u v => r u v ∨ (u = a ∧ v = b) ∨ (u = b ∧ v = a)) a b :=
      Relation.EqvGen.rel a b (Or.inr (Or.inl ⟨rfl, rfl⟩))
    rcases h with h | ⟨h1, h2⟩ | ⟨h1, h2⟩
    · exact emb h
    · exact Relation.EqvGen.trans _ _ _
        (Relation.EqvGen.trans _ _ _ (emb h1) hab) (emb h2)
    · exact Relation.EqvGen.trans _ _ _
        (Relation.EqvGen.trans _ _ _ (emb h1) (Relation.EqvGen.symm _ _ hab))
        (emb h2)

theorem linkRel_append_single {ps : List (Nat × Nat)} {S : List Nat}
    {k : Nat} {x y : Nat} :
    linkRel ps (S ++ [k]) x y ↔
      linkRel ps S x y ∨
        (x = (ps.getD k (0, 0)).1 ∧ y = (ps.getD k (0, 0)).2) ∨
        (x = (ps.getD k (0, 0)).2 ∧ y = (ps.getD k (0, 0)).1) := by
  constructor
  · rintro ⟨j, hj, hp⟩
    rcases List.mem_append.mp hj with hj | hj
    · exact Or.inl ⟨j, hj, hp⟩
    · have hjk : j = k := List.mem_singleton.mp hj
      subst hjk
      rcases hp with hp | hp
      · exact Or.inr (Or.inl
          ⟨(congrArg Prod.fst hp).symm, (congrArg Prod.snd hp).symm⟩)
      · exact Or.inr (Or.inr
          ⟨(congrArg Prod.snd hp).symm, (congrArg Prod.fst hp).symm⟩)
  · rintro (⟨j, hj, hp⟩ | ⟨rfl, rfl⟩ | ⟨rfl, rfl⟩)
    · exact ⟨j, List.mem_append.mpr (Or.inl hj), hp⟩
    · exact ⟨k, List.mem_append.mpr (Or.inr (List.mem_singleton.mpr rfl)),
        Or.inl rfl⟩
    · exact ⟨k, List.mem_append.mpr (Or.inr (List.mem_singleton.mpr rfl)),
        Or.inr rfl⟩

theorem connRel_append_single {ps : List (Nat × Nat)} {S : List Nat} {k : Nat}
    {x y : Nat} :
    connRel ps (S ++ [k]) x y ↔
      connRel ps S x y ∨
        (connRel ps S x (ps.getD k (0, 0)).1 ∧
          connRel ps S (ps.getD k (0, 0)).2 y) ∨
        (connRel ps S x (ps.getD k (0, 0)).2 ∧
          connRel ps S (ps.getD k (0, 0)).1 y) := by
  constructor
  · intro h
    exact eqvGen_extend.mp
      (Relation.EqvGen.mono (fun u v huv => linkRel_append_single.mp huv) h)
  · intro h
    exact Relation.EqvGen.mono
      (fun u v huv => linkRel_append_single.mpr huv) (eqvGen_extend.mpr h)

theorem connRel_elim {ps : List (Nat × Nat)} {S T : List Nat}
    (hlink : ∀ k ∈ S, connRel ps T (ps.getD k (0, 0)).1 (ps.getD k (0, 0)).2)
    {x y : Nat} (h : connRel ps S x y) : connRel ps T x y := by
  induction h with
  | rel u v huv =>
    obtain ⟨k, hk, hp⟩ := huv
    rcases hp with hp | hp
    · have h2 := hlink k hk
      rw [hp] at h2
      exact h2
    · have h2 := hlink k hk
      rw [hp] at h2
      exact Relation.EqvGen.symm _ _ h2
  | refl u => exact Relation.EqvGen.refl u
  | symm u v _ ih => exact Relation.EqvGen.symm _ _ ih
  | trans u v w _ _ ih1 ih2 => exact Relation.EqvGen.trans _ _ _ ih1 ih2

theorem connRel_bounds {ps : List (Nat × Nat)} {S : List Nat} {n : Nat}
    (hvert : ∀ k ∈ S, (ps.getD k (0, 0)).1 < n ∧ (ps.getD k (0, 0)).2 < n)
    {x y : Nat} (h : connRel ps S x y) : (x < n ∧ y < n) ∨ x = y := by
  induction h with
  | rel u v huv =>
    obtain ⟨k, hk, hp⟩ := huv
    have h2 := hvert k hk
    rcases hp with hp | hp
    · rw [hp] at h2
      exact Or.inl h2
    · rw [hp] at h2
      exact Or.inl ⟨h2.2, h2.1⟩
  | refl u => exact Or.inr rfl
  | symm u v _ ih =>
    rcases ih with ⟨h1, h2⟩ | h1
    · exact Or.inl ⟨h2, h1⟩
    · exact Or.inr h1.symm
  | trans u v w _ _ ih1 ih2 =>
    rcases ih1 with ⟨h1, h2⟩ | h1
    · rcases ih2 with ⟨h3, h4⟩ | h3
      · exact Or.inl ⟨h1, h4⟩
      · exact Or.inl ⟨h1, h3 ▸ h2⟩
    · rw [h1]
      exact ih2

/-! ## Union-find as a representation of pair connectivity -/

theorem ite_eq_ite_iff (a b c d : Nat) :
    ((if a = c then d else a) = (if b = c then d else b)) ↔
      (a = b ∨ (a = c ∧ d = b) ∨ (a = d ∧ c = b)) := by
  split_ifs <;> omega

theorem ufrep_new (n : Nat) (ps : List (Nat × Nat)) :
    UFRep n ps [] (DisjointSets.new n).parent := by
  refine ⟨by simp [DisjointSets.new], DisjointSets.new_inv n,
    fun x y hx hy => ?_⟩
  rw [DisjointSets.root_new, DisjointSets.root_new]
  constructor
  · intro h
    exact h ▸ Relation.EqvGen.refl x
  · intro h
    exact connRel_nil h

theorem ufrep_merge {n : Nat} {ps : List (Nat × Nat)} {S : List Nat}
    {p : List Nat} (hrep : UFRep n ps S p) {k x y : Nat}
    (hpair : ps.getD k (0, 0) = (x, y) ∨ ps.getD k (0, 0) = (y, x))
    (hx : x < n) (hy : y < n) :
    ∃ p3 keep, DisjointSets.merge ⟨p⟩ x y = some (⟨p3⟩, keep) ∧
      (keep = true ↔ ¬ connRel ps S x y) ∧
      (∀ z, DisjointSets.root p3 z =
        if DisjointSets.root p z = DisjointSets.root p x
          then DisjointSets.root p y else DisjointSets.root p z) ∧
      UFRep n ps (S ++ [k]) p3 := by
  obtain ⟨hlen, hinv, hconn⟩ := hrep
  have hx' : x < p.length := by rw [hlen]; exact hx
  have hy' : y < p.length := by rw [hlen]; exact hy
  obtain ⟨p3, hmerge, hlen3, hinv3, hroots3, _⟩ :=
    DisjointSets.merge_spec hinv hx' hy'
  refine ⟨p3, _, hmerge, ?_, hroots3, hlen3.trans hlen, hinv3, ?_⟩
  · rw [bne_iff_ne]
    exact not_congr (hconn x y hx hy)
  · intro u v hu hv
    rw [hroots3 u, hroots3 v, ite_eq_ite_iff, connRel_append_single,
      hconn u v hu hv, hconn u x hu hx, hconn y v hy hv, hconn u y hu hy,
      hconn x v hx hv]
    rcases hpair with hp | hp
    · rw [hp]
    · rw [hp]
      tauto

theorem ufrep_exists {n : Nat} {ps : List (Nat × Nat)} :
    ∀ S : List Nat,
      (∀ j ∈ S, (ps.getD j (0, 0)).1 < n ∧ (ps.getD j (0, 0)).2 < n) →
      ∃ p, UFRep n ps S p := by
  intro S
  induction S using List.reverseRecOn with
  | nil => exact fun _ => ⟨(DisjointSets.new n).parent, ufrep_new n ps⟩
  | append_singleton S k ih =>
    intro hvert
    obtain ⟨p, hp⟩ := ih fun j hj => hvert j (List.mem_append.mpr (Or.inl hj))
    have hk :=
      hvert k (List.mem_append.mpr (Or.inr (List.mem_singleton.mpr rfl)))
    obtain ⟨p3, keep, _, _, _, hrep3⟩ := ufrep_merge hp (Or.inl rfl) hk.1 hk.2
    exact ⟨p3, hrep3⟩

/-! ## Counting components through a representing union-find state -/

theorem numComponents_eq_classes {n : Nat} {ps : List (Nat × Nat)}
    {S : List Nat} {p : List Nat} (hrep : UFRep n ps S p) :
    numComponents n ps S = classesCard p n := by
  obtain ⟨hlen, hinv, hconn⟩ := hrep
  have hmem : ∀ a : Fin n,
      DisjointSets.root p a.val ∈
        (Finset.range n).image fun x => DisjointSets.root p x :=
    fun a => Finset.mem_image.mpr ⟨a.val, Finset.mem_range.mpr a.isLt, rfl⟩
  have hresp : ∀ a b : Fin n, (connSetoid n ps S).r a b →
      (⟨DisjointSets.root p a.val, hmem a⟩ :
        {t // t ∈ (Finset.range n).image fun x => DisjointSets.root p x}) =
      ⟨DisjointSets.root p b.val, hmem b⟩ :=
    fun a b hab => Subtype.ext ((hconn a.val b.val a.isLt b.isLt).mpr hab)
  have hbij : Function.Bijective
      (Quotient.lift (fun a : Fin n => (⟨DisjointSets.root p a.val, hmem a⟩ :
          {t // t ∈ (Finset.range n).image fun x => DisjointSets.root p x}))
        hresp) := by
    constructor
    · intro q1 q2
      refine Quotient.inductionOn₂ q1 q2 fun a b => ?_
      intro h
      apply Quotient.sound
      have h2 : DisjointSets.root p a.val = DisjointSets.root p b.val :=
        congrArg Subtype.val h
      exact (hconn a.val b.val a.isLt b.isLt).mp h2
    · rintro ⟨t, ht⟩
      obtain ⟨x, hx, rfl⟩ := Finset.mem_image.mp ht
      exact ⟨Quotient.mk (connSetoid n ps S) ⟨x, Finset.mem_range.mp hx⟩, rfl⟩
  show Nat.card (Quotient (connSetoid n ps S)) = _
  rw [Nat.card_congr (Equiv.ofBijective _ hbij), Nat.card_eq_fintype_card]
  exact Fintype.card_coe _

theorem classesCard_new (n : Nat) :
    classesCard (DisjointSets.new n).parent n = n := by
  have h1 : Set.EqOn (fun x => DisjointSets.root (DisjointSets.new n).parent x)
      id ↑(Finset.range n) := fun x _ => DisjointSets.root_new n x
  show ((Finset.range n).image
    fun x => DisjointSets.root (DisjointSets.new n).parent x).card = n
  rw [Finset.image_congr h1, Finset.image_id, Finset.card_range]

theorem numComponents_nil (n : Nat) (ps : List (Nat × Nat)) :
    numComponents n ps [] = n := by
  rw [numComponents_eq_classes (ufrep_new n ps), classesCard_new]

theorem classesCard_update_eq {p p3 : List Nat} {n x y : Nat}
    (heq : DisjointSets.root p x = DisjointSets.root p y)
    (hupd : ∀ z, DisjointSets.root p3 z =
      if DisjointSets.root p z = DisjointSets.root p x
        then DisjointSets.root p y else DisjointSets.root p z) :
    classesCard p3 n = classesCard p n := by
  have hfun : Set.EqOn (fun z => DisjointSets.root p3 z)
      (fun z => DisjointSets.root p z) ↑(Finset.range n) := by
    intro z _
    show DisjointSets.root p3 z = DisjointSets.root p z
    rw [hupd z]
    by_cases h : DisjointSets.root p z = DisjointSets.root p x
    · rw [if_pos h, ← heq, h]
    · rw [if_neg h]
  show ((Finset.range n).image fun z => DisjointSets.root p3 z).card =
    ((Finset.range n).image fun z => DisjointSets.root p z).card
  rw [Finset.image_congr hfun]

theorem classesCard_update_ne {p p3 : List Nat} {n x y : Nat}
    (hx : x < n) (hy : y < n)
    (hne : DisjointSets.root p x ≠ DisjointSets.root p y)
    (hupd : ∀ z, DisjointSets.root p3 z =
      if DisjointSets.root p z = DisjointSets.root p x
        then DisjointSets.root p y else DisjointSets.root p z) :
    classesCard p3 n + 1 = classesCard p n := by
  have hximg : DisjointSets.root p x ∈
      (Finset.range n).image fun z => DisjointSets.root p z :=
    Finset.mem_image.mpr ⟨x, Finset.mem_range.mpr hx, rfl⟩
  have hyimg : DisjointSets.root p y ∈
      (Finset.range n).image fun z => DisjointSets.root p z :=
    Finset.mem_image.mpr ⟨y, Finset.mem_range.mpr hy, rfl⟩
  have himg : ((Finset.range n).image fun z => DisjointSets.root p3 z) =
      ((Finset.range n).image fun z => DisjointSets.root p z).erase
        (DisjointSets.root p x) := by
    ext t
    constructor
    · intro ht
      obtain ⟨z, hz, rfl⟩ := Finset.mem_image.mp ht
      rw [hupd z]
      by_cases h : DisjointSets.root p z = DisjointSets.root p x
      · rw [if_pos h]
        exact Finset.mem_erase.mpr ⟨fun he => hne he.symm, hyimg⟩
      · rw [if_neg h]
        exact Finset.mem_erase.mpr ⟨h, Finset.mem_image.mpr ⟨z, hz, rfl⟩⟩
    · intro ht
      obtain ⟨hne2, ht2⟩ := Finset.mem_erase.mp ht
      obtain ⟨z, hz, rfl⟩ := Finset.mem_image.mp ht2
      refine Finset.mem_image.mpr ⟨z, hz, ?_⟩
      rw [hupd z, if_neg hne2]
  have hpos : 0 <
      ((Finset.range n).image fun z => DisjointSets.root p z).card :=
    Finset.card_pos.mpr ⟨_, hximg⟩
  show ((Finset.range n).image fun z => DisjointSets.root p3 z).card + 1 =
    ((Finset.range n).image fun z => DisjointSets.root p z).card
  rw [himg, Finset.card_erase_of_mem hximg]
  omega

theorem numComponents_append {n : Nat} {ps : List (Nat × Nat)} {S : List Nat}
    {k : Nat}
    (hS : ∀ j ∈ S, (ps.getD j (0, 0)).1 < n ∧ (ps.getD j (0, 0)).2 < n)
    (hk1 : (ps.getD k (0, 0)).1 < n) (hk2 : (ps.getD k (0, 0)).2 < n) :
    (¬ connRel ps S (ps.getD k (0, 0)).1 (ps.getD k (0, 0)).2 →
      numComponents n ps (S ++ [k]) + 1 = numComponents n ps S) ∧
    (connRel ps S (ps.getD k (0, 0)).1 (ps.getD k (0, 0)).2 →
      numComponents n ps (S ++ [k]) = numComponents n ps S) := by
  obtain ⟨p, hrep⟩ := ufrep_exists S hS
  obtain ⟨p3, keep, hmerge, hkeep, hupd, hrep3⟩ :=
    ufrep_merge hrep (Or.inl rfl) hk1 hk2
  have h3 := numComponents_eq_classes hrep3
  have h0 := numComponents_eq_classes hrep
  constructor
  · intro hnc
    rw [h3, h0]
    refine classesCard_update_ne hk1 hk2 (fun he => ?_) hupd
    exact hnc ((hrep.2.2 _ _ hk1 hk2).mp he)
  · intro hc
    rw [h3, h0]
    exact classesCard_update_eq ((hrep.2.2 _ _ hk1 hk2).mpr hc) hupd

theorem numComponents_congr {n : Nat} {ps : List (Nat × Nat)} {S S' : List Nat}
    (hS : ∀ j ∈ S, (ps.getD j (0, 0)).1 < n ∧ (ps.getD j (0, 0)).2 < n)
    (hmem : ∀ j, j ∈ S ↔ j ∈ S') :
    numComponents n ps S = numComponents n ps S' := by
  obtain ⟨p, hrep⟩ := ufrep_exists S hS
  have hrep' : UFRep n ps S' p :=
    ⟨hrep.1, hrep.2.1, fun x y hx hy =>
      (hrep.2.2 x y hx hy).trans
        ⟨connRel_mono fun j hj => (hmem j).mp hj,
         connRel_mono fun j hj => (hmem j).mpr hj⟩⟩
  rw [numComponents_eq_classes hrep, numComponents_eq_classes hrep']

theorem numComponents_le {n : Nat} {ps : List (Nat × Nat)} {A B : List Nat}
    (hA : ∀ j ∈ A, (ps.getD j (0, 0)).1 < n ∧ (ps.getD j (0, 0)).2 < n)
    (hB : ∀ j ∈ B, (ps.getD j (0, 0)).1 < n ∧ (ps.getD j (0, 0)).2 < n)
    (himp : ∀ x y, connRel ps B x y → connRel ps A x y) :
    numComponents n ps A ≤ numComponents n ps B := by
  obtain ⟨pA, hrepA⟩ := ufrep_exists A hA
  obtain ⟨pB, hrepB⟩ := ufrep_exists B hB
  obtain ⟨hlenA, hinvA, hconnA⟩ := hrepA
  obtain ⟨hlenB, hinvB, hconnB⟩ := hrepB
  have hkey : ∀ z, z < n →
      DisjointSets.root pA (DisjointSets.root pB z) =
        DisjointSets.root pA z := by
    intro z hz
    have hz' : z < pB.length := by rw [hlenB]; exact hz
    have hzB : DisjointSets.root pB z < n := by
      rw [← hlenB]
      exact DisjointSets.root_lt_length hinvB hz'
    have hconn1 : connRel ps B z (DisjointSets.root pB z) :=
      (hconnB z _ hz hzB).mp (DisjointSets.root_idem hinvB z).symm
    exact ((hconnA z _ hz hzB).mpr (himp _ _ hconn1)).symm
  have himg : ((Finset.range n).image fun z => DisjointSets.root pA z) =
      ((Finset.range n).image fun z => DisjointSets.root pB z).image
        fun z => DisjointSets.root pA z := by
    ext t
    simp only [Finset.mem_image, Finset.mem_range]
    constructor
    · rintro ⟨z, hz, rfl⟩
      exact ⟨DisjointSets.root pB z, ⟨z, hz, rfl⟩, hkey z hz⟩
    · rintro ⟨s, ⟨z, hz, rfl⟩, rfl⟩
      exact ⟨z, hz, (hkey z hz).symm⟩
  rw [numComponents_eq_classes ⟨hlenA, hinvA, hconnA⟩,
    numComponents_eq_classes ⟨hlenB, hinvB, hconnB⟩]
  show ((Finset.range n).image fun z => DisjointSets.root pA z).card ≤
    ((Finset.range n).image fun z => DisjointSets.root pB z).card
  rw [himg]
  exact Finset.card_image_le

/-! ## Forests: rank formula and spanning count -/

theorem forest_count {n : Nat} {ps : List (Nat × Nat)} :
    ∀ F : List Nat, F.Nodup →
      (∀ j ∈ F, (ps.getD j (0, 0)).1 < n ∧ (ps.getD j (0, 0)).2 < n) →
      (∀ k ∈ F,
        ¬ connRel ps (F.erase k) (ps.getD k (0, 0)).1 (ps.getD k (0, 0)).2) →
      numComponents n ps F + F.length = n := by
  intro F
  induction F with
  | nil =>
    intro _ _ _
    rw [numComponents_nil, List.length_nil, Nat.add_zero]
  | cons k F ih =>
    intro hnd hvert hnr
    have hknotin : k ∉ F := (List.nodup_cons.mp hnd).1
    have hndF : F.Nodup := (List.nodup_cons.mp hnd).2
    have hvertF : ∀ j ∈ F, (ps.getD j (0, 0)).1 < n ∧
        (ps.getD j (0, 0)).2 < n :=
      fun j hj => hvert j (List.mem_cons_of_mem k hj)
    have hnrF : ∀ j ∈ F,
        ¬ connRel ps (F.erase j) (ps.getD j (0, 0)).1 (ps.getD j (0, 0)).2 := by
      intro j hj hc
      have hkj : k ≠ j := fun he => hknotin (he ▸ hj)
      refine hnr j (List.mem_cons_of_mem k hj) (connRel_mono ?_ hc)
      intro x hx
      rw [List.erase_cons_tail (by simp [hkj])]
      exact List.mem_cons_of_mem k hx
    have hknr : ¬ connRel ps F (ps.getD k (0, 0)).1 (ps.getD k (0, 0)).2 := by
      have h2 := hnr k (List.mem_cons_self k F)
      rw [List.erase_cons_head] at h2
      exact h2
    have hkb := hvert k (List.mem_cons_self k F)
    have happ := (numComponents_append hvertF hkb.1 hkb.2).1 hknr
    have hcongr : numComponents n ps (k :: F) =
        numComponents n ps (F ++ [k]) := by
      refine numComponents_congr (fun j hj => hvert j hj) ?_
      intro j
      simp only [List.mem_cons, List.mem_append, List.mem_singleton]
      tauto
    have hF := ih hndF hvertF hnrF
    rw [hcongr, List.length_cons]
    omega

theorem noredundant_subset {ps : List (Nat × Nat)} {F B : List Nat}
    (hndF : F.Nodup) (hndB : B.Nodup) (hsub : ∀ x ∈ B, x ∈ F)
    (hnr : ∀ k ∈ F,
      ¬ connRel ps (F.erase k) (ps.getD k (0, 0)).1 (ps.getD k (0, 0)).2) :
    ∀ k ∈ B,
      ¬ connRel ps (B.erase k) (ps.getD k (0, 0)).1 (ps.getD k (0, 0)).2 := by
  intro k hk hc
  refine hnr k (hsub k hk) (connRel_mono ?_ hc)
  intro x hx
  have hx1 := hndB.mem_erase_iff.mp hx
  exact hndF.mem_erase_iff.mpr ⟨hx1.1, hsub x hx1.2⟩

theorem spanning_comps {n : Nat} {ps : List (Nat × Nat)} {F : List Nat}
    (hrange : ∀ j, j < ps.length →
      (ps.getD j (0, 0)).1 < n ∧ (ps.getD j (0, 0)).2 < n)
    (hbound : ∀ k ∈ F, k < ps.length)
    (hspan : ∀ x y, x < n → y < n →
      connRel ps (List.range ps.length) x y → connRel ps F x y) :
    numComponents n ps F = numComponents n ps (List.range ps.length) := by
  have hFvert : ∀ j ∈ F, (ps.getD j (0, 0)).1 < n ∧ (ps.getD j (0, 0)).2 < n :=
    fun j hj => hrange j (hbound j hj)
  have hRvert : ∀ j ∈ List.range ps.length,
      (ps.getD j (0, 0)).1 < n ∧ (ps.getD j (0, 0)).2 < n :=
    fun j hj => hrange j (List.mem_range.mp hj)
  apply Nat.le_antisymm
  · refine numComponents_le hFvert hRvert ?_
    intro x y hc
    rcases connRel_bounds hRvert hc with ⟨hx, hy⟩ | heq
    · exact hspan x y hx hy hc
    · exact heq ▸ Relation.EqvGen.refl x
  · refine numComponents_le hRvert hFvert ?_
    intro x y hc
    exact connRel_mono (fun j hj => List.mem_range.mpr (hbound j hj)) hc

theorem comps_of_connected {n : Nat} {ps : List (Nat × Nat)} {S : List Nat}
    (hn : 0 < n) (hconn : ∀ x y, x < n → y < n → connRel ps S x y) :
    numComponents n ps S = 1 := by
  refine Nat.card_eq_one_iff_unique.mpr
    ⟨⟨?_⟩, ⟨Quotient.mk (connSetoid n ps S) ⟨0, hn⟩⟩⟩
  intro q1 q2
  refine Quotient.inductionOn₂ q1 q2 fun a b => ?_
  exact Quotient.sound (hconn a.val b.val a.isLt b.isLt)

/-! ## The greedy filtering pass, abstractly -/

theorem greedyRun_sublist {ps : List (Nat × Nat)} :
    ∀ {S L K : List Nat}, GreedyRun ps S L K → K.Sublist L := by
  intro S L K h
  induction h with
  | nil S => exact List.Sublist.refl []
  | keep h hrun ih => exact ih.cons₂ _
  | skip h hrun ih => exact ih.cons _

theorem greedyRun_count {n : Nat} {ps : List (Nat × Nat)} :
    ∀ {S L K : List Nat}, GreedyRun ps S L K →
      (∀ j ∈ S, (ps.getD j (0, 0)).1 < n ∧ (ps.getD j (0, 0)).2 < n) →
      (∀ e ∈ L, (ps.getD e (0, 0)).1 < n ∧ (ps.getD e (0, 0)).2 < n) →
      ∀ K0 T, K0 ++ T = K →
        numComponents n ps (S ++ K0) + K0.length = numComponents n ps S := by
  intro S L K h
  induction h with
  | nil S =>
    intro _ _ K0 T hK0
    have h0 : K0 = [] := (List.append_eq_nil.mp hK0).1
    subst h0
    rw [List.append_nil, List.length_nil, Nat.add_zero]
  | @keep S e L K hne hrun ih =>
    intro hS hL K0 T hK0
    have he := hL e (List.mem_cons_self e L)
    have hSe : ∀ j ∈ S ++ [e],
        (ps.getD j (0, 0)).1 < n ∧ (ps.getD j (0, 0)).2 < n := by
      intro j hj
      rcases List.mem_append.mp hj with hj | hj
      · exact hS j hj
      · rw [List.mem_singleton.mp hj]
        exact he
    have hL' : ∀ f ∈ L, (ps.getD f (0, 0)).1 < n ∧ (ps.getD f (0, 0)).2 < n :=
      fun f hf => hL f (List.mem_cons_of_mem e hf)
    have happ := (numComponents_append hS he.1 he.2).1 hne
    cases K0 with
    | nil =>
      rw [List.append_nil, List.length_nil, Nat.add_zero]
    | cons x K0 =>
      have hx : x = e := by injection hK0
      have htail : K0 ++ T = K := by injection hK0
      subst hx
      have ihh := ih hSe hL' K0 T htail
      rw [List.append_cons, List.length_cons]
      omega
  | @skip S e L K hc hrun ih =>
    intro hS hL K0 T hK0
    exact ih hS (fun f hf => hL f (List.mem_cons_of_mem e hf)) K0 T hK0

theorem greedyRun_spans {ps : List (Nat × Nat)} :
    ∀ {S L K : List Nat}, GreedyRun ps S L K →
      ∀ e ∈ L,
        connRel ps (S ++ K) (ps.getD e (0, 0)).1 (ps.getD e (0, 0)).2 := by
  intro S L K h
  induction h with
  | nil S =>
    intro e he
    exact absurd he (List.not_mem_nil e)
  | @keep S e L K hne hrun ih =>
    intro f hf
    rcases List.mem_cons.mp hf with rfl | hf
    · refine Relation.EqvGen.rel _ _ ⟨f, ?_, Or.inl rfl⟩
      exact List.mem_append.mpr (Or.inr (List.mem_cons_self f _))
    · have h2 := ih f hf
      rw [← List.append_cons] at h2
      exact h2
  | @skip S e L K hc hrun ih =>
    intro f hf
    rcases List.mem_cons.mp hf with rfl | hf
    · exact connRel_mono (fun j hj => List.mem_append.mpr (Or.inl hj)) hc
    · exact ih f hf

theorem greedyRun_rejected {ps : List (Nat × Nat)} {w : List Int} :
    ∀ {S L K : List Nat}, GreedyRun ps S L K → L.Sorted (Graph.weightLE w) →
      ∀ k ∈ L, k ∉ K →
        ∃ K0, (∀ x ∈ K0, x ∈ K ∧ Graph.weightLE w x k) ∧
          connRel ps (S ++ K0) (ps.getD k (0, 0)).1 (ps.getD k (0, 0)).2 := by
  intro S L K h
  induction h with
  | nil S =>
    intro _ k hk _
    exact absurd hk (List.not_mem_nil k)
  | @keep S e L K hne hrun ih =>
    intro hsort k hk hknot
    have hsort' := List.sorted_cons.mp hsort
    rcases List.mem_cons.mp hk with rfl | hk2
    · exact absurd (List.mem_cons_self k K) hknot
    · have hknotK : k ∉ K := fun h2 => hknot (List.mem_cons_of_mem e h2)
      obtain ⟨K0, hK0, hconn⟩ := ih hsort'.2 k hk2 hknotK
      refine ⟨e :: K0, ?_, ?_⟩
      · intro x hx
        rcases List.mem_cons.mp hx with rfl | hx2
        · exact ⟨List.mem_cons_self x K, hsort'.1 k hk2⟩
        · have h3 := hK0 x hx2
          exact ⟨List.mem_cons_of_mem e h3.1, h3.2⟩
      · rw [List.append_cons]
        exact hconn
  | @skip S e L K hc hrun ih =>
    intro hsort k hk hknot
    rcases List.mem_cons.mp hk with rfl | hk2
    · refine ⟨[], fun x hx => absurd hx (List.not_mem_nil x), ?_⟩
      rw [List.append_nil]
      exact hc
    · exact ih (List.sorted_cons.mp hsort).2 k hk2 hknot

theorem kruskalGo_greedy {n : Nat} {ps : List (Nat × Nat)} {g : Graph}
    (hb : buildUndirected n ps = some g) :
    ∀ (L S : List Nat) (p : List Nat), UFRep n ps S p →
      (∀ e ∈ L, e < ps.length) →
      (∀ e ∈ L, (ps.getD e (0, 0)).1 < n ∧ (ps.getD e (0, 0)).2 < n) →
      ∃ K, Graph.kruskalGo g L ⟨p⟩ = some K ∧ GreedyRun ps S L K := by
  have hspec := Graph.buildGraph_spec (buildUndirected_eq n ps ▸ hb)
  have hendp : g.endp = (undirPairs ps).map Prod.snd := hspec.2.1
  intro L
  induction L with
  | nil =>
    intro S p _ _ _
    exact ⟨[], rfl, GreedyRun.nil S⟩
  | cons e L ih =>
    intro S p hrep hbound hvert
    have he : e < ps.length := hbound e (List.mem_cons_self e L)
    have helen : 2 * e + 1 < g.endp.length := by
      rw [hendp, List.length_map, undirPairs_length]
      omega
    have hx := Graph.get?_some_getD g.endp 0
      (show 2 * e < g.endp.length by omega)
    have hy := Graph.get?_some_getD g.endp 0 helen
    have hgx : g.endp.getD (2 * e) 0 = (ps.getD e (0, 0)).2 := by
      rw [hendp, getD_map_snd _ (by rw [undirPairs_length]; omega),
        undirPairs_getD_even ps e he]
    have hgy : g.endp.getD (2 * e + 1) 0 = (ps.getD e (0, 0)).1 := by
      rw [hendp, getD_map_snd _ (by rw [undirPairs_length]; omega),
        undirPairs_getD_odd ps e he]
    have hvxy := hvert e (List.mem_cons_self e L)
    obtain ⟨p3, keep, hmerge, hkeep, hupd, hrep3⟩ :=
      @ufrep_merge n ps S p hrep e (ps.getD e (0, 0)).2 (ps.getD e (0, 0)).1
        (Or.inr rfl) hvxy.2 hvxy.1
    have hkeep' : keep = true ↔
        ¬ connRel ps S (ps.getD e (0, 0)).1 (ps.getD e (0, 0)).2 := by
      rw [hkeep]
      exact not_congr ⟨fun h => Relation.EqvGen.symm _ _ h,
        fun h => Relation.EqvGen.symm _ _ h⟩
    rw [← hgx, ← hgy] at hmerge
    have hbound' : ∀ f ∈ L, f < ps.length :=
      fun f hf => hbound f (List.mem_cons_of_mem e hf)
    have hvert' : ∀ f ∈ L,
        (ps.getD f (0, 0)).1 < n ∧ (ps.getD f (0, 0)).2 < n :=
      fun f hf => hvert f (List.mem_cons_of_mem e hf)
    cases keep with
    | true =>
      have hnc := hkeep'.mp rfl
      obtain ⟨K, hK, hrunK⟩ := ih (S ++ [e]) p3 hrep3 hbound' hvert'
      refine ⟨e :: K, ?_, GreedyRun.keep hnc hrunK⟩
      rw [kruskalGo_cons_merge hx hy hmerge, hK]
      rfl
    | false =>
      have hc : connRel ps S (ps.getD e (0, 0)).1 (ps.getD e (0, 0)).2 := by
        by_contra hc
        exact absurd (hkeep'.mpr hc) (by simp)
      have hrepS : UFRep n ps S p3 := by
        obtain ⟨hl3, hi3, hc3⟩ := hrep3
        refine ⟨hl3, hi3, fun u v hu hv => ?_⟩
        rw [hc3 u v hu hv, connRel_append_single]
        constructor
        · rintro (h | ⟨h1, h2⟩ | ⟨h1, h2⟩)
          · exact h
          · exact Relation.EqvGen.trans _ _ _ h1
              (Relation.EqvGen.trans _ _ _ hc h2)
          · exact Relation.EqvGen.trans _ _ _ h1
              (Relation.EqvGen.trans _ _ _ (Relation.EqvGen.symm _ _ hc) h2)
        · exact Or.inl
      obtain ⟨K, hK, hrunK⟩ := ih S p3 hrepS hbound' hvert'
      refine ⟨K, ?_, GreedyRun.skip hc hrunK⟩
      rw [kruskalGo_cons_merge hx hy hmerge, hK]
      rfl

/-! ## Minimality of the greedy selection -/

theorem sorted_key_le {w : List Int} {K : List Nat}
    (hs : K.Sorted (Graph.weightLE w)) {i j : Nat} (hij : i ≤ j)
    (hj : j < K.length) :
    w.getD (K.getD i 0) 0 ≤ w.getD (K.getD j 0) 0 := by
  have hi : i < K.length := Nat.lt_of_le_of_lt hij hj
  rcases Nat.eq_or_lt_of_le hij with rfl | hlt
  · exact le_refl _
  · have h : Graph.weightLE w (K.get ⟨i, hi⟩) (K.get ⟨j, hj⟩) :=
      List.Sorted.rel_get_of_lt hs hlt
    rw [List.getD_eq_getElem _ _ hi, List.getD_eq_getElem _ _ hj]
    exact h

theorem mem_take_of_key_lt {w : List Int} {K : List Nat}
    (hs : K.Sorted (Graph.weightLE w)) {x i : Nat} (hi : i < K.length)
    (hx : x ∈ K) (hlt : w.getD x 0 < w.getD (K.getD i 0) 0) :
    x ∈ K.take i := by
  obtain ⟨j, hj, hjx⟩ := List.mem_iff_getElem.mp hx
  rcases Nat.lt_or_ge j i with hji | hji
  · refine List.mem_take_iff_getElem.mpr ⟨j, by omega, hjx⟩
  · exfalso
    have h := sorted_key_le hs hji hj
    have h7 : K.getD j 0 = x := by
      rw [List.getD_eq_getElem _ _ hj]
      exact hjx
    rw [h7] at h
    omega

theorem sum_map_le_of_le {f : Nat → Int} :
    ∀ (l1 l2 : List Nat), l1.length = l2.length →
      (∀ i, i < l1.length → f (l1.getD i 0) ≤ f (l2.getD i 0)) →
      (l1.map f).sum ≤ (l2.map f).sum := by
  intro l1
  induction l1 with
  | nil =>
    intro l2 hlen _
    have h0 : l2 = [] := List.length_eq_zero.mp hlen.symm
    subst h0
    exact le_refl _
  | cons a l1 ih =>
    intro l2 hlen h
    cases l2 with
    | nil => exact absurd hlen (by simp)
    | cons b l2 =>
      have h0 : f a ≤ f b := h 0 (by simp)
      have htail := ih l2 (by simpa using hlen)
        (fun i hi => by simpa using h (i + 1) (by simpa using hi))
      simp only [List.map_cons, List.sum_cons]
      exact add_le_add h0 htail

theorem filter_mem_perm {L F : List Nat} (hndL : L.Nodup) (hndF : F.Nodup)
    (hsub : ∀ k ∈ F, k ∈ L) :
    (L.filter fun x => decide (x ∈ F)).Perm F := by
  apply List.perm_of_nodup_nodup_toFinset_eq (hndL.filter _) hndF
  ext a
  simp only [List.mem_toFinset, List.mem_filter, decide_eq_true_eq]
  exact ⟨fun h => h.2, fun h => ⟨hsub a h, h⟩⟩

theorem greedy_weight_min {n : Nat} {ps : List (Nat × Nat)} {w : List Int}
    {L K F : List Nat}
    (hrun : GreedyRun ps [] L K)
    (hsort : L.Sorted (Graph.weightLE w))
    (hndL : L.Nodup)
    (hLmem : ∀ e, e ∈ L ↔ e < ps.length)
    (hrange : ∀ j, j < ps.length →
      (ps.getD j (0, 0)).1 < n ∧ (ps.getD j (0, 0)).2 < n)
    (hF : IsSpanningForest n ps F)
    (hlenF : F.length = K.length) :
    mstWeight w K ≤ mstWeight w F := by
  obtain ⟨hndF, hFbound, hFnr, hFspan⟩ := hF
  have hKsub : K.Sublist L := greedyRun_sublist hrun
  have hKsorted : K.Sorted (Graph.weightLE w) := hsort.sublist hKsub
  have hKnd : K.Nodup := hndL.sublist hKsub
  set F' := L.filter (fun x => decide (x ∈ F)) with hFfil
  have hFL : ∀ k ∈ F, k ∈ L := fun k hk => (hLmem k).mpr (hFbound k hk)
  have hperm : F'.Perm F := filter_mem_perm hndL hndF hFL
  have hF'nd : F'.Nodup := hndL.filter _
  have hF'sorted : F'.Sorted (Graph.weightLE w) :=
    hsort.sublist (List.filter_sublist L)
  have hF'len : F'.length = K.length := by rw [hperm.length_eq, hlenF]
  have hF'sub : ∀ x ∈ F', x ∈ F := by
    intro x hx
    rw [hFfil] at hx
    simpa using (List.mem_filter.mp hx).2
  have hwF : mstWeight w F' = mstWeight w F :=
    (hperm.map fun e => w.getD e 0).sum_eq
  rw [← hwF]
  have hkey : ∀ i, i < K.length →
      w.getD (K.getD i 0) 0 ≤ w.getD (F'.getD i 0) 0 := by
    intro i hiK
    by_contra hgt
    push_neg at hgt
    have hiF : i < F'.length := by omega
    have hAsub : ∀ x ∈ K.take i, x ∈ K := fun x hx => List.mem_of_mem_take hx
    have hBsubF' : ∀ x ∈ F'.take (i + 1), x ∈ F' :=
      fun x hx => List.mem_of_mem_take hx
    have hBsubF : ∀ x ∈ F'.take (i + 1), x ∈ F :=
      fun x hx => hF'sub x (hBsubF' x hx)
    have hAlen : (K.take i).length = i :=
      List.length_take_of_le (le_of_lt hiK)
    have hBlen : (F'.take (i + 1)).length = i + 1 :=
      List.length_take_of_le (by omega)
    have hAbound : ∀ x ∈ K.take i, x < ps.length :=
      fun x hx => (hLmem x).mp (hKsub.subset (hAsub x hx))
    have hAcount : numComponents n ps (K.take i) + i = n := by
      have h2 := greedyRun_count hrun
        (fun j hj => absurd hj (List.not_mem_nil j))
        (fun e he => hrange e ((hLmem e).mp he))
        (K.take i) (K.drop i) (List.take_append_drop i K)
      rw [List.nil_append, numComponents_nil, hAlen] at h2
      omega
    have hBnd : (F'.take (i + 1)).Nodup := hF'nd.sublist (List.take_sublist _ _)
    have hBbound : ∀ x ∈ F'.take (i + 1), x < ps.length :=
      fun x hx => hFbound x (hBsubF x hx)
    have hBnr := noredundant_subset hndF hBnd hBsubF hFnr
    have hBcount : numComponents n ps (F'.take (i + 1)) + (i + 1) = n := by
      have h2 := forest_count (F'.take (i + 1)) hBnd
        (fun j hj => hrange j (hBbound j hj)) hBnr
      omega
    have hex : ∃ k ∈ F'.take (i + 1),
        ¬ connRel ps (K.take i) (ps.getD k (0, 0)).1 (ps.getD k (0, 0)).2 := by
      by_contra hall
      push_neg at hall
      have hle : numComponents n ps (K.take i) ≤
          numComponents n ps (F'.take (i + 1)) :=
        numComponents_le (fun j hj => hrange j (hAbound j hj))
          (fun j hj => hrange j (hBbound j hj))
          (fun x y hc => connRel_elim hall hc)
      omega
    obtain ⟨k, hkB, hknc⟩ := hex
    have hkF' : k ∈ F' := hBsubF' k hkB
    have hkL : k ∈ L := hFL k (hF'sub k hkF')
    have hkkey : w.getD k 0 ≤ w.getD (F'.getD i 0) 0 := by
      obtain ⟨j, hj, hFk⟩ := List.mem_take_iff_getElem.mp hkB
      have hj2 : j ≤ i := by omega
      have hjF : j < F'.length := by omega
      have h3 := sorted_key_le hF'sorted hj2 hiF
      have h7 : F'.getD j 0 = k := by
        rw [List.getD_eq_getElem _ _ hjF]
        exact hFk
      rw [h7] at h3
      exact h3
    have hkltK : w.getD k 0 < w.getD (K.getD i 0) 0 :=
      lt_of_le_of_lt hkkey hgt
    have hkA : k ∉ K.take i :=
      fun hka => hknc (Relation.EqvGen.rel _ _ ⟨k, hka, Or.inl rfl⟩)
    by_cases hkK : k ∈ K
    · exact hkA (mem_take_of_key_lt hKsorted hiK hkK hkltK)
    · obtain ⟨K0, hK0, hconn⟩ := greedyRun_rejected hrun hsort k hkL hkK
      rw [List.nil_append] at hconn
      refine hknc (connRel_mono ?_ hconn)
      intro x hx
      have h5 := hK0 x hx
      have h6 : w.getD x 0 < w.getD (K.getD i 0) 0 :=
        lt_of_le_of_lt h5.2 hkltK
      exact mem_take_of_key_lt hKsorted hiK h5.1 h6
  exact sum_map_le_of_le K F' hF'len.symm hkey

/-- Full behaviour of `min_spanning_tree` on a graph built purely from
undirected pairs whose slot count matches the weight list: it succeeds,
returns pair indices, its size is `n` minus the number of components, the
connected case gives `n - 1`, and its weight is minimum over spanning
forests (whose size it also pins down). -/
theorem min_spanning_tree_built {n : Nat} {ps : List (Nat × Nat)}
    {w : List Int} {g : Graph} (hb : buildUndirected n ps = some g)
    (hw : g.num_e = 2 * w.length) :
    ∃ K, g.min_spanning_tree w = some K ∧
      (∀ e ∈ K, e < ps.length) ∧
      K.length + numComponents n ps (List.range ps.length) = n ∧
      ((∀ x y, x < n → y < n → connRel ps (List.range ps.length) x y) →
        K.length = n - 1) ∧
      (∀ F, IsSpanningForest n ps F →
        F.length = K.length ∧ mstWeight w K ≤ mstWeight w F) := by
  have hspec := Graph.buildGraph_spec (buildUndirected_eq n ps ▸ hb)
  have hsrc := hspec.2.2.2.2.1
  have hrange : ∀ j, j < ps.length →
      (ps.getD j (0, 0)).1 < n ∧ (ps.getD j (0, 0)).2 < n := by
    intro j hj
    have h1 := hsrc (2 * j) (by rw [undirPairs_length]; omega)
    have h2 := hsrc (2 * j + 1) (by rw [undirPairs_length]; omega)
    simp only [srcD] at h1 h2
    rw [undirPairs_getD_even ps j hj] at h1
    rw [undirPairs_getD_odd ps j hj] at h2
    exact ⟨h1, h2⟩
  have hne2 : g.num_e = 2 * ps.length := by
    show g.next.length = _
    rw [hspec.2.2.1, undirPairs_length]
  have hwl : w.length = ps.length := by omega
  have hLperm :=
    List.perm_insertionSort (Graph.weightLE w) (List.range w.length)
  have hLnd : ((List.range w.length).insertionSort (Graph.weightLE w)).Nodup :=
    hLperm.nodup_iff.mpr (List.nodup_range _)
  have hLmem : ∀ e,
      e ∈ (List.range w.length).insertionSort (Graph.weightLE w) ↔
        e < ps.length := by
    intro e
    rw [hLperm.mem_iff, List.mem_range, hwl]
  have hsorted :=
    List.sorted_insertionSort (Graph.weightLE w) (List.range w.length)
  have hnv : g.num_v = n := hspec.1
  have hrep0 : UFRep n ps [] (DisjointSets.new g.num_v).parent := by
    rw [hnv]
    exact ufrep_new n ps
  obtain ⟨K, hgo, hrun⟩ := kruskalGo_greedy hb
    ((List.range w.length).insertionSort (Graph.weightLE w)) [] _ hrep0
    (fun e he => (hLmem e).mp he)
    (fun e he => hrange e ((hLmem e).mp he))
  have hmst : g.min_spanning_tree w = some K := by
    show (if g.num_e = 2 * w.length
      then Graph.kruskalGo g
        ((List.range w.length).insertionSort (Graph.weightLE w))
        (DisjointSets.new g.num_v)
      else none) = some K
    rw [if_pos hw]
    exact hgo
  have hKsub := greedyRun_sublist hrun
  have hKbound : ∀ e ∈ K, e < ps.length :=
    fun e he => (hLmem e).mp (hKsub.subset he)
  have hspans0 := greedyRun_spans hrun
  have hspan : ∀ x y, x < n → y < n →
      connRel ps (List.range ps.length) x y → connRel ps K x y := by
    intro x y _ _ hc
    refine connRel_elim ?_ hc
    intro j hj
    have h2 := hspans0 j ((hLmem j).mpr (List.mem_range.mp hj))
    rw [List.nil_append] at h2
    exact h2
  have hcompsK : numComponents n ps K =
      numComponents n ps (List.range ps.length) :=
    spanning_comps hrange hKbound hspan
  have hcount : K.length + numComponents n ps (List.range ps.length) = n := by
    have h2 := greedyRun_count hrun
      (fun j hj => absurd hj (List.not_mem_nil j))
      (fun e he => hrange e ((hLmem e).mp he)) K [] (List.append_nil K)
    rw [List.nil_append, numComponents_nil, hcompsK] at h2
    omega
  refine ⟨K, hmst, hKbound, hcount, ?_, ?_⟩
  · intro hcc
    rcases Nat.eq_zero_or_pos n with hn0 | hn0
    · omega
    · have h1 := comps_of_connected hn0 hcc
      omega
  · intro F hF
    have hlenF : F.length = K.length := by
      have h2 := forest_count F hF.1
        (fun j hj => hrange j (hF.2.1 j hj)) hF.2.2.1
      have h3 := spanning_comps hrange hF.2.1 hF.2.2.2
      omega
    exact ⟨hlenF, greedy_weight_min hrun hsorted hLnd hLmem hrange hF hlenF⟩

/-- Claim C2: for every graph built solely from undirected-edge pairs with
`num_e() == 2 * weights.len()`, `min_spanning_tree(weights)` succeeds and
returns logical edge indices: their number plus the number of connected
components of the underlying undirected graph equals `num_v()` — exactly
`num_v() - 1` indices when that graph is connected, fewer otherwise — and
the total weight of the returned edges is minimum among all spanning
forests, whose size the returned list also matches.  In particular, on the
triangle 0-1, 1-2, 2-0 with weights `[7, 3, 5]` the result equals
`[1, 2]`. -/
theorem min_spanning_tree_correct {n : Nat} {ps : List (Nat × Nat)}
    {w : List Int} {g : Graph} (hb : buildUndirected n ps = some g)
    (hw : g.num_e = 2 * w.length) :
    (∃ K, g.min_spanning_tree w = some K ∧
      (∀ e ∈ K, e < ps.length) ∧
      K.length + numComponents n ps (List.range ps.length) = n ∧
      ((∀ x y, x < n → y < n → connRel ps (List.range ps.length) x y) →
        K.length = n - 1) ∧
      (∀ F, IsSpanningForest n ps F →
        F.length = K.length ∧ mstWeight w K ≤ mstWeight w F)) ∧
    Graph.min_spanning_tree
      ⟨[some 5, some 2, some 4], [none, none, some 1, none, some 3, some 0],
        [1, 0, 2, 1, 0, 2]⟩ [7, 3, 5] = some [1, 2] :=
  ⟨min_spanning_tree_built hb hw, by decide⟩

/-- Witness for C2 on the triangle 0-1, 1-2, 2-0 with weights
`[7, 3, 5]`. -/
theorem min_spanning_tree_correct_witness :
    buildUndirected 3 [(0, 1), (1, 2), (2, 0)] =
      some ⟨[some 5, some 2, some 4],
        [none, none, some 1, none, some 3, some 0], [1, 0, 2, 1, 0, 2]⟩ ∧
    (⟨[some 5, some 2, some 4], [none, none, some 1, none, some 3, some 0],
        [1, 0, 2, 1, 0, 2]⟩ : Graph).num_e = 2 * ([7, 3, 5] : List Int).length ∧
    ((∃ K, (⟨[some 5, some 2, some 4],
          [none, none, some 1, none, some 3, some 0],
          [1, 0, 2, 1, 0, 2]⟩ : Graph).min_spanning_tree [7, 3, 5] = some K ∧
        (∀ e ∈ K, e < ([(0, 1), (1, 2), (2, 0)] : List (Nat × Nat)).length) ∧
        K.length + numComponents 3 [(0, 1), (1, 2), (2, 0)]
          (List.range ([(0, 1), (1, 2), (2, 0)] : List (Nat × Nat)).length) =
            3 ∧
        ((∀ x y, x < 3 → y < 3 → connRel [(0, 1), (1, 2), (2, 0)]
            (List.range
              ([(0, 1), (1, 2), (2, 0)] : List (Nat × Nat)).length) x y) →
          K.length = 3 - 1) ∧
        (∀ F, IsSpanningForest 3 [(0, 1), (1, 2), (2, 0)] F →
          F.length = K.length ∧
            mstWeight [7, 3, 5] K ≤ mstWeight [7, 3, 5] F)) ∧
      Graph.min_spanning_tree
        ⟨[some 5, some 2, some 4], [none, none, some 1, none, some 3, some 0],
          [1, 0, 2, 1, 0, 2]⟩ [7, 3, 5] = some [1, 2]) :=
  ⟨by decide, by decide, min_spanning_tree_correct (by decide) (by decide)⟩

end RustAlgorithms
